import Mathlib

/-!
# Decoding and reply-tree assembly of `reddit/things.go`

A shallow embedding of the decoder (`things.UnmarshalJSON`) and of the tree
assembler (`addCommentToTree`, `addMoreToTree` and the two recursive helpers on
`Comment`) together with theorems about them.

Conventions of the embedding.

* A Go pointer to a struct that the decoder allocates with `new` is represented
  by the struct value itself: the decoder never stores a nil element in a bucket
  and never stores the same pointer twice, so the tree a composite owns is an
  ordinary (alias-free) recursive value.  `*More`, which is nil when a node has
  no continuation marker, is an `Option`.  The `Post` of a composite is a value
  too: `PostAndComments.UnmarshalJSON` sets it to an element of the post bucket
  and the tree operations dereference it unconditionally.
* A method with a pointer receiver that mutates the receiver takes the receiver
  as an argument and returns its new value.
* `encoding/json` is not part of the repository.  Each call `json.Unmarshal(b, v)`
  into a fresh `v` is a function of `b`; these functions are collected in the
  structures `JSON` and `JSONListing` (which also holds the one call of
  `json.Marshal`), and every theorem holds for all of them.
* `Timestamp`, `User`, `ModAction` are declared in other files of the package and
  `float32` has no counterpart here; they are the type parameters `External`.
-/

namespace reddit

/-! ## Constants and data model -/

def kindComment : String := "t1"
def kindAccount : String := "t2"
def kindPost : String := "t3"
def kindMessage : String := "t4"
def kindSubreddit : String := "t5"
def kindAward : String := "t6"
def kindListing : String := "Listing"
def kindKarmaList : String := "KarmaList"
def kindTrophyList : String := "TrophyList"
def kindUserList : String := "UserList"
def kindMore : String := "more"
def kindModAction : String := "modaction"

/-- A Go byte slice (`[]byte`, `json.RawMessage`). -/
abbrev Bytes := List UInt8

/-- A non-nil Go `error`, identified by its message. -/
abbrev GoError := String

/-- Types used by `things.go` whose declarations live elsewhere. -/
structure External where
  Timestamp : Type
  Float32 : Type
  User : Type
  ModAction : Type

/-- The struct `thing`: a kind tag and the raw bytes of its `data` member. -/
structure thing where
  Kind : String
  Data : Bytes

/-- The struct `More`.  (Field defaults, here and below, are Go's zero values.) -/
structure More where
  ID : String := ""
  FullID : String := ""
  ParentID : String := ""
  Count : Int := 0
  Depth : Int := 0
  Children : List String := []
deriving DecidableEq

/-- The fields of the struct `Comment` other than `Replies`, in declaration order. -/
structure CommentFields (E : External) where
  ID : String := ""
  FullID : String := ""
  Created : Option E.Timestamp := none
  Edited : Option E.Timestamp := none
  ParentID : String := ""
  Permalink : String := ""
  Body : String := ""
  Author : String := ""
  AuthorID : String := ""
  AuthorFlairText : String := ""
  AuthorFlairID : String := ""
  SubredditName : String := ""
  SubredditNamePrefixed : String := ""
  SubredditID : String := ""
  Likes : Option Bool := none
  Score : Int := 0
  Controversiality : Int := 0
  PostID : String := ""
  PostTitle : String := ""
  PostPermalink : String := ""
  PostAuthor : String := ""
  PostNumComments : Option Int := none
  IsSubmitter : Bool := false
  ScoreHidden : Bool := false
  Saved : Bool := false
  Stickied : Bool := false
  Locked : Bool := false
  CanGild : Bool := false
  NSFW : Bool := false

/-- The struct `Comment`.  Its last field `Replies Replies` is stored unfolded as
the two fields of `Replies`: the child comments and the optional marker. -/
inductive Comment (E : External) where
  | mk (fields : CommentFields E) (Comments : List (Comment E)) (More : Option More)

/-- The struct `Replies`. -/
structure Replies (E : External) where
  Comments : List (Comment E)
  More : Option More

/-- The struct `Post`. -/
structure Post (E : External) where
  ID : String := ""
  FullID : String := ""
  Created : Option E.Timestamp := none
  Edited : Option E.Timestamp := none
  Permalink : String := ""
  URL : String := ""
  Title : String := ""
  Body : String := ""
  Likes : Option Bool := none
  Score : Int := 0
  UpvoteRatio : E.Float32
  NumberOfComments : Int := 0
  SubredditName : String := ""
  SubredditNamePrefixed : String := ""
  SubredditID : String := ""
  Author : String := ""
  AuthorID : String := ""
  Spoiler : Bool := false
  Locked : Bool := false
  NSFW : Bool := false
  IsSelfPost : Bool := false
  Saved : Bool := false
  Stickied : Bool := false

/-- The struct `Subreddit`. -/
structure Subreddit (E : External) where
  ID : String := ""
  FullID : String := ""
  Created : Option E.Timestamp := none
  URL : String := ""
  Name : String := ""
  NamePrefixed : String := ""
  Title : String := ""
  Description : String := ""
  Type_ : String := ""
  SuggestedCommentSort : String := ""
  Subscribers : Int := 0
  ActiveUserCount : Option Int := none
  NSFW : Bool := false
  UserIsMod : Bool := false
  Subscribed : Bool := false
  Favorite : Bool := false

/-- The struct `things`: one ordered bucket per entity kind. -/
structure things (E : External) where
  Comments : List (Comment E)
  Mores : List More
  Users : List E.User
  Posts : List (Post E)
  Subreddits : List (Subreddit E)
  ModActions : List E.ModAction

/-- The struct `PostAndComments`. -/
structure PostAndComments (E : External) where
  Post : Post E
  Comments : List (Comment E)
  More : Option More

/-- The calls of `json.Unmarshal` made by `things.UnmarshalJSON`, one per target
type; each decodes into a fresh value, so its outcome is a function of the bytes. -/
structure JSON (E : External) where
  unmarshalThings : Bytes → Except GoError (List thing)
  unmarshalComment : Bytes → Except GoError (Comment E)
  unmarshalMore : Bytes → Except GoError More
  unmarshalUser : Bytes → Except GoError E.User
  unmarshalPost : Bytes → Except GoError (Post E)
  unmarshalSubreddit : Bytes → Except GoError (Subreddit E)
  unmarshalModAction : Bytes → Except GoError E.ModAction

variable {E : External}

namespace Comment

def fields : Comment E → CommentFields E
  | mk f _ _ => f

/-- The field `Replies` of a comment. -/
def Replies : Comment E → Replies E
  | mk _ cs m => ⟨cs, m⟩

def FullID (c : Comment E) : String := c.fields.FullID

def ParentID (c : Comment E) : String := c.fields.ParentID

end Comment

/-! ## The discriminated decoder -/

/-- The method `things.init`: every bucket becomes the empty slice. -/
def things.init (_t : things E) : things E :=
  { Comments := [], Mores := [], Users := [], Posts := [], Subreddits := [], ModActions := [] }

/-- One iteration of the loop of `things.UnmarshalJSON`: the `switch` on the kind. -/
def things.appendThing (J : JSON E) (t : things E) (th : thing) : things E :=
  if th.Kind = kindComment then
    match J.unmarshalComment th.Data with
    | .ok v => { t with Comments := t.Comments ++ [v] }
    | .error _ => t
  else if th.Kind = kindMore then
    match J.unmarshalMore th.Data with
    | .ok v => { t with Mores := t.Mores ++ [v] }
    | .error _ => t
  else if th.Kind = kindAccount then
    match J.unmarshalUser th.Data with
    | .ok v => { t with Users := t.Users ++ [v] }
    | .error _ => t
  else if th.Kind = kindPost then
    match J.unmarshalPost th.Data with
    | .ok v => { t with Posts := t.Posts ++ [v] }
    | .error _ => t
  else if th.Kind = kindSubreddit then
    match J.unmarshalSubreddit th.Data with
    | .ok v => { t with Subreddits := t.Subreddits ++ [v] }
    | .error _ => t
  else if th.Kind = kindModAction then
    match J.unmarshalModAction th.Data with
    | .ok v => { t with ModActions := t.ModActions ++ [v] }
    | .error _ => t
  else t

/-- The method `things.UnmarshalJSON`: the receiver after the call and the
returned error (`none` for nil). -/
def things.UnmarshalJSON (J : JSON E) (t : things E) (b : Bytes) : things E × Option GoError :=
  match J.unmarshalThings b with
  | .error err => (t.init, some err)
  | .ok ths => (ths.foldl (things.appendThing J) t.init, none)

/-! ### Vocabulary of the decoder's specification -/

/-- The comment an envelope stands for: tagged `t1` and its payload decodes. -/
def JSON.commentOf (J : JSON E) (th : thing) : Option (Comment E) :=
  if th.Kind = kindComment then (J.unmarshalComment th.Data).toOption else none

/-- The marker an envelope stands for: tagged `more` and its payload decodes. -/
def JSON.moreOf (J : JSON E) (th : thing) : Option More :=
  if th.Kind = kindMore then (J.unmarshalMore th.Data).toOption else none

/-- The user an envelope stands for: tagged `t2` and its payload decodes. -/
def JSON.userOf (J : JSON E) (th : thing) : Option E.User :=
  if th.Kind = kindAccount then (J.unmarshalUser th.Data).toOption else none

/-- The post an envelope stands for: tagged `t3` and its payload decodes. -/
def JSON.postOf (J : JSON E) (th : thing) : Option (Post E) :=
  if th.Kind = kindPost then (J.unmarshalPost th.Data).toOption else none

/-- The subreddit an envelope stands for: tagged `t5` and its payload decodes. -/
def JSON.subredditOf (J : JSON E) (th : thing) : Option (Subreddit E) :=
  if th.Kind = kindSubreddit then (J.unmarshalSubreddit th.Data).toOption else none

/-- The moderation action an envelope stands for: tagged `modaction` and its
payload decodes. -/
def JSON.modActionOf (J : JSON E) (th : thing) : Option E.ModAction :=
  if th.Kind = kindModAction then (J.unmarshalModAction th.Data).toOption else none

/-- The six kinds the decoder dispatches on. -/
def knownKinds : List String :=
  [kindComment, kindMore, kindAccount, kindPost, kindSubreddit, kindModAction]

/-- The payload of the envelope fails to decode into the shape of its own kind
(false for an envelope of an unknown kind, which has no shape). -/
def JSON.malformed (J : JSON E) (th : thing) : Prop :=
  (th.Kind = kindComment ∧ (J.unmarshalComment th.Data).toOption = none) ∨
  (th.Kind = kindMore ∧ (J.unmarshalMore th.Data).toOption = none) ∨
  (th.Kind = kindAccount ∧ (J.unmarshalUser th.Data).toOption = none) ∨
  (th.Kind = kindPost ∧ (J.unmarshalPost th.Data).toOption = none) ∨
  (th.Kind = kindSubreddit ∧ (J.unmarshalSubreddit th.Data).toOption = none) ∨
  (th.Kind = kindModAction ∧ (J.unmarshalModAction th.Data).toOption = none)

/-- Two bucket sets agree on the bucket of kind `K`. -/
def things.sameBucket (K : String) (t u : things E) : Prop :=
  (K = kindComment → t.Comments = u.Comments) ∧
  (K = kindMore → t.Mores = u.Mores) ∧
  (K = kindAccount → t.Users = u.Users) ∧
  (K = kindPost → t.Posts = u.Posts) ∧
  (K = kindSubreddit → t.Subreddits = u.Subreddits) ∧
  (K = kindModAction → t.ModActions = u.ModActions)

/-! ## The reply-tree assembler -/

mutual
/-- The method `Comment.addCommentToReplies`; the receiver after the call. -/
def Comment.addCommentToReplies : Comment E → Comment E → Comment E
  | .mk f cs m, comment =>
    if f.FullID = comment.ParentID then .mk f (cs ++ [comment]) m
    else .mk f (addCommentToEachReply cs comment) m
/-- The loop `for _, reply := range c.Replies.Comments` calling
`reply.addCommentToReplies(comment)` on every element in turn. -/
def addCommentToEachReply : List (Comment E) → Comment E → List (Comment E)
  | [], _ => []
  | reply :: rest, comment =>
    reply.addCommentToReplies comment :: addCommentToEachReply rest comment
end

mutual
/-- The method `Comment.addMoreToReplies`; the receiver after the call. -/
def Comment.addMoreToReplies : Comment E → More → Comment E
  | .mk f cs m, more =>
    if f.FullID = more.ParentID then .mk f cs (some more)
    else .mk f (addMoreToEachReply cs more) m
/-- The loop `for _, reply := range c.Replies.Comments` calling
`reply.addMoreToReplies(more)` on every element in turn. -/
def addMoreToEachReply : List (Comment E) → More → List (Comment E)
  | [], _ => []
  | reply :: rest, more => reply.addMoreToReplies more :: addMoreToEachReply rest more
end

/-- The method `PostAndComments.addCommentToTree`; the receiver after the call. -/
def PostAndComments.addCommentToTree (pc : PostAndComments E) (comment : Comment E) :
    PostAndComments E :=
  if pc.Post.FullID = comment.ParentID then
    { pc with Comments := pc.Comments ++ [comment] }
  else
    { pc with Comments := addCommentToEachReply pc.Comments comment }

/-- The method `PostAndComments.addMoreToTree`; the receiver after the call.  The
`if` has no `return`, so the loop over the top-level comments always runs. -/
def PostAndComments.addMoreToTree (pc : PostAndComments E) (more : reddit.More) :
    PostAndComments E :=
  let pc1 : PostAndComments E :=
    if pc.Post.FullID = more.ParentID then { pc with More := some more } else pc
  { pc1 with Comments := addMoreToEachReply pc1.Comments more }

/-! ### Vocabulary of the assembler's specification

A node of the tree is addressed by the list of child indices leading to it. -/

mutual
/-- Fullnames of a comment and of all comments below it, in pre-order. -/
def Comment.allFullIDs : Comment E → List String
  | .mk f cs _ => f.FullID :: allFullIDs cs
/-- Fullnames of all comments of a forest, in pre-order. -/
def allFullIDs : List (Comment E) → List String
  | [] => []
  | c :: cs => c.allFullIDs ++ allFullIDs cs
end

/-- The comment with one more reply at the end of its child sequence. -/
def Comment.appendReply : Comment E → Comment E → Comment E
  | .mk f cs m, x => .mk f (cs ++ [x]) m

/-- The comment with its continuation marker replaced. -/
def Comment.setMore (more : More) : Comment E → Comment E
  | .mk f cs _ => .mk f cs (some more)

/-- The node reached from a comment along a path (the empty path is the comment). -/
def Comment.nodeAt : Comment E → List Nat → Option (Comment E)
  | c, [] => some c
  | c, i :: p =>
    match c.Replies.Comments[i]? with
    | none => none
    | some d => d.nodeAt p

/-- The node reached from the top level of a forest along a path. -/
def nodeAt (cs : List (Comment E)) : List Nat → Option (Comment E)
  | [] => none
  | i :: p =>
    match cs[i]? with
    | none => none
    | some d => d.nodeAt p

/-- The comment with the node at the given path replaced by its image under `g`;
every node off the path is kept as it is. -/
def Comment.modifyAt (g : Comment E → Comment E) : Comment E → List Nat → Comment E
  | c, [] => g c
  | .mk f cs m, i :: p =>
    match cs[i]? with
    | none => .mk f cs m
    | some d => .mk f (cs.set i (d.modifyAt g p)) m

/-- The forest with the node at the given path replaced by its image under `g`. -/
def modifyAt (g : Comment E → Comment E) (cs : List (Comment E)) : List Nat → List (Comment E)
  | [] => cs
  | i :: p =>
    match cs[i]? with
    | none => cs
    | some d => cs.set i (d.modifyAt g p)

mutual
/-- Path, relative to the comment, of the first node in pre-order named `t`. -/
def Comment.firstMatch (t : String) : Comment E → Option (List Nat)
  | .mk f cs _ => if f.FullID = t then some [] else firstMatch t 0 cs
/-- Path of the first node named `t` in the forest `cs`, whose first tree has
index `i` among its siblings. -/
def firstMatch (t : String) : Nat → List (Comment E) → Option (List Nat)
  | _, [] => none
  | i, c :: cs =>
    match c.firstMatch t with
    | some p => some (i :: p)
    | none => firstMatch t (i + 1) cs
end

/-- The claim "first match wins": the comment is attached at the first node in
pre-order (root post first) named by its parent-fullname, and nowhere else. -/
def PostAndComments.attachAtFirstMatch (pc : PostAndComments E) (comment : Comment E) :
    PostAndComments E :=
  if pc.Post.FullID = comment.ParentID then
    { pc with Comments := pc.Comments ++ [comment] }
  else
    match firstMatch comment.ParentID 0 pc.Comments with
    | none => pc
    | some p => { pc with Comments := modifyAt (fun c => c.appendReply comment) pc.Comments p }

mutual
/-- The walk shared by both insertions: `g` is applied at a node named `t` and the
walk does not descend below it; otherwise the walk visits every child. -/
def Comment.visit (t : String) (g : Comment E → Comment E) : Comment E → Comment E
  | .mk f cs m => if f.FullID = t then g (.mk f cs m) else .mk f (visitEach t g cs) m
/-- The walk applied to every tree of a forest. -/
def visitEach (t : String) (g : Comment E → Comment E) : List (Comment E) → List (Comment E)
  | [] => []
  | c :: cs => c.visit t g :: visitEach t g cs
end

/-- Two nodes agree on their own content: the same payload fields, the same
marker and equally many direct replies. -/
def Comment.sameNode (a b : Comment E) : Prop :=
  a.fields = b.fields ∧ a.Replies.More = b.Replies.More ∧
    a.Replies.Comments.length = b.Replies.Comments.length

/-- The node of `c` at path `p` is named `t` and none of its proper ancestors
inside `c` is named `t`. -/
def Comment.isTopmost (t : String) (c : Comment E) (p : List Nat) : Prop :=
  (∃ A, c.nodeAt p = some A ∧ A.FullID = t) ∧
    ∀ q B, q <+: p → q ≠ p → c.nodeAt q = some B → B.FullID ≠ t

mutual
/-- Paths, relative to the comment and in pre-order, of the nodes named `t` that
have no proper ancestor named `t`. -/
def Comment.topmostPaths (t : String) : Comment E → List (List Nat)
  | .mk f cs _ => if f.FullID = t then [[]] else topmostPathsFrom t 0 cs
/-- The same for the forest `cs`, whose first tree has index `i` among its
siblings. -/
def topmostPathsFrom (t : String) : Nat → List (Comment E) → List (List Nat)
  | _, [] => []
  | i, c :: cs => (c.topmostPaths t).map (fun p => i :: p) ++ topmostPathsFrom t (i + 1) cs
end

/-- The node of the forest `cs` at path `p` is named `t` and none of its proper
ancestors inside the forest is named `t`. -/
def forestIsTopmost (t : String) (cs : List (Comment E)) (p : List Nat) : Prop :=
  (∃ A, nodeAt cs p = some A ∧ A.FullID = t) ∧
    ∀ q B, q <+: p → q ≠ p → nodeAt cs q = some B → B.FullID ≠ t

/-! ## Listings, reply containers and the composite assembler -/

/-- The struct `listing`: the decoded children and the two cursors. -/
structure listing (E : External) where
  Things : things E
  After : String := ""
  Before : String := ""

/-- The struct `rootListing`. -/
structure rootListing (E : External) where
  Kind : String := ""
  Data : listing E

set_option linter.dupNamespace false

/-- The struct `Comments`. -/
structure Comments (E : External) where
  Comments : List (Comment E)
  After : String := ""
  Before : String := ""

/-- The struct `Users`. -/
structure Users (E : External) where
  Users : List E.User
  After : String := ""
  Before : String := ""

/-- The struct `Subreddits`. -/
structure Subreddits (E : External) where
  Subreddits : List (Subreddit E)
  After : String := ""
  Before : String := ""

/-- The struct `Posts`. -/
structure Posts (E : External) where
  Posts : List (Post E)
  After : String := ""
  Before : String := ""

/-- The struct `ModActions`. -/
structure ModActions (E : External) where
  ModActions : List E.ModAction
  After : String := ""
  Before : String := ""

/-- The method `rootListing.getComments`. -/
def rootListing.getComments (l : rootListing E) : reddit.Comments E :=
  { Comments := l.Data.Things.Comments, After := l.Data.After, Before := l.Data.Before }

/-- The method `rootListing.getFirstMore` (`none` for nil). -/
def rootListing.getFirstMore (l : rootListing E) : Option More :=
  if l.Data.Things.Mores.length = 0 then none else l.Data.Things.Mores[0]?

/-- The method `rootListing.getUsers`. -/
def rootListing.getUsers (l : rootListing E) : reddit.Users E :=
  { Users := l.Data.Things.Users, After := l.Data.After, Before := l.Data.Before }

/-- The method `rootListing.getPosts`. -/
def rootListing.getPosts (l : rootListing E) : reddit.Posts E :=
  { Posts := l.Data.Things.Posts, After := l.Data.After, Before := l.Data.Before }

/-- The method `rootListing.getSubreddits`. -/
def rootListing.getSubreddits (l : rootListing E) : reddit.Subreddits E :=
  { Subreddits := l.Data.Things.Subreddits, After := l.Data.After, Before := l.Data.Before }

/-- The method `rootListing.getModActions`. -/
def rootListing.getModActions (l : rootListing E) : reddit.ModActions E :=
  { ModActions := l.Data.Things.ModActions, After := l.Data.After, Before := l.Data.Before }

/-- The calls into `encoding/json` made by `Replies` and `PostAndComments`:
`json.Unmarshal` into a fresh `rootListing`, `json.Unmarshal` into a fresh
`[2]rootListing`, and `json.Marshal` of a comment slice (bytes and error). -/
structure JSONListing (E : External) where
  unmarshalRootListing : Bytes → Except GoError (rootListing E)
  unmarshalRootListings : Bytes → Except GoError (rootListing E × rootListing E)
  marshalComments : List (Comment E) → Bytes × Option GoError

/-- The outcome of running a method that may index a slice out of range. -/
inductive Outcome (α : Type) where
  | returned (a : α)
  | panicked (msg : String)

/-- The method `Comment.HasMore`. -/
def Comment.HasMore (c : Comment E) : Bool :=
  match c.Replies.More with
  | none => false
  | some more => decide (more.Children.length > 0)

/-- The method `PostAndComments.HasMore`. -/
def PostAndComments.HasMore (pc : PostAndComments E) : Bool :=
  match pc.More with
  | none => false
  | some more => decide (more.Children.length > 0)

/-- The two bytes of the JSON literal `""`. -/
def emptyStringLiteral : Bytes := [34, 34]

/-- The four bytes of the JSON literal `null`. -/
def nullLiteral : Bytes := [110, 117, 108, 108]

/-- The method `Replies.UnmarshalJSON`: the receiver after the call and the
returned error.  The assignment `r = nil` in the first branch rebinds the local
pointer only, so the receiver is returned as it was. -/
def Replies.UnmarshalJSON (L : JSONListing E) (r : Replies E) (data : Bytes) :
    Replies E × Option GoError :=
  if data = emptyStringLiteral then (r, none)
  else
    match L.unmarshalRootListing data with
    | .error err => (r, some err)
    | .ok root => ({ Comments := root.Data.Things.Comments, More := root.getFirstMore }, none)

/-- The method `Replies.MarshalJSON`; the receiver is `none` when the pointer is nil. -/
def Replies.MarshalJSON (L : JSONListing E) (r : Option (Replies E)) : Bytes × Option GoError :=
  match r with
  | none => (nullLiteral, none)
  | some r =>
    if r.Comments.length = 0 then (nullLiteral, none)
    else L.marshalComments r.Comments

/-- The method `PostAndComments.UnmarshalJSON`: the receiver after the call and
the returned error, or a panic when `Posts[0]` is out of range. -/
def PostAndComments.UnmarshalJSON (L : JSONListing E) (pc : PostAndComments E) (data : Bytes) :
    Outcome (PostAndComments E × Option GoError) :=
  match L.unmarshalRootListings data with
  | .error err => .returned (pc, some err)
  | .ok (l0, l1) =>
    match l0.getPosts.Posts[0]? with
    | none => .panicked "index out of range [0] with length 0"
    | some post =>
      let comments := l1.getComments.Comments
      let moreComments := l1.getFirstMore
      .returned ({ Post := post, Comments := comments, More := moreComments }, none)

/-! ## Concrete instances

A stand-in for the JSON library and a few small trees, used to evaluate the
definitions at concrete inputs. -/

/-- External types for the concrete instances. -/
abbrev toyExternal : External := ⟨Nat, Nat, String, String⟩

/-- Kind tag denoted by a byte in the toy encoding. -/
def toyKind (v : UInt8) : String :=
  match v.toNat % 8 with
  | 0 => kindComment
  | 1 => kindMore
  | 2 => kindAccount
  | 3 => kindPost
  | 4 => kindSubreddit
  | 5 => kindModAction
  | 6 => kindMessage
  | _ => kindListing

/-- A toy JSON library.  An input is a non-empty byte string, each byte standing
for one envelope: its residue modulo 8 selects the kind and the byte itself is
the payload.  A payload decodes into any shape unless it is 128 or more. -/
def toyJSON : JSON toyExternal where
  unmarshalThings := fun b =>
    if b = [] then .error "unexpected end of JSON input"
    else .ok (b.map fun v => ⟨toyKind v, [v]⟩)
  unmarshalComment := fun d =>
    match d with
    | [v] => if v.toNat < 128 then .ok (.mk { ID := toString v.toNat } [] none)
             else .error "cannot unmarshal"
    | _ => .error "unexpected end of JSON input"
  unmarshalMore := fun d =>
    match d with
    | [v] => if v.toNat < 128 then .ok { ID := toString v.toNat } else .error "cannot unmarshal"
    | _ => .error "unexpected end of JSON input"
  unmarshalUser := fun d =>
    match d with
    | [v] => if v.toNat < 128 then .ok (toString v.toNat) else .error "cannot unmarshal"
    | _ => .error "unexpected end of JSON input"
  unmarshalPost := fun d =>
    match d with
    | [v] => if v.toNat < 128 then .ok { ID := toString v.toNat, UpvoteRatio := 0 }
             else .error "cannot unmarshal"
    | _ => .error "unexpected end of JSON input"
  unmarshalSubreddit := fun d =>
    match d with
    | [v] => if v.toNat < 128 then .ok { ID := toString v.toNat } else .error "cannot unmarshal"
    | _ => .error "unexpected end of JSON input"
  unmarshalModAction := fun d =>
    match d with
    | [v] => if v.toNat < 128 then .ok (toString v.toNat) else .error "cannot unmarshal"
    | _ => .error "unexpected end of JSON input"

/-- An empty bucket set. -/
def toyThings : things toyExternal :=
  { Comments := [], Mores := [], Users := [], Posts := [], Subreddits := [], ModActions := [] }

/-- A comment with the given fullname, parent-fullname, replies and marker. -/
def toyComment (name parent : String) (cs : List (Comment toyExternal)) (m : Option More) :
    Comment toyExternal :=
  .mk { FullID := name, ParentID := parent } cs m

/-- A post with the given fullname. -/
def toyPost (name : String) : Post toyExternal := { FullID := name, UpvoteRatio := 0 }

/-- A marker with the given fullname, parent-fullname and pending children. -/
def toyMore (name parent : String) (children : List String) : More :=
  { FullID := name, ParentID := parent, Children := children }

/-- The envelopes of the toy input `[0, 3, 136, 8]`: a comment, a post, a comment
whose payload fails to decode, and a comment. -/
def toyEnvelopes : List thing :=
  [⟨kindComment, [0]⟩, ⟨kindPost, [3]⟩, ⟨kindComment, [136]⟩, ⟨kindComment, [8]⟩]

/-- A composite with distinct fullnames: the post `t3_x`, the top-level comment
`t1_a` with the reply `t1_c`, and the top-level comment `t1_d`. -/
def toyTree : PostAndComments toyExternal :=
  { Post := toyPost "t3_x"
    Comments :=
      [toyComment "t1_a" "t3_x" [toyComment "t1_c" "t1_a" [] none] none,
       toyComment "t1_d" "t3_x" [] none]
    More := none }

/-- A composite in which two sibling comments carry the same fullname `t1_a`. -/
def toySiblings : PostAndComments toyExternal :=
  { Post := toyPost "t3_x"
    Comments := [toyComment "t1_a" "t3_x" [] none, toyComment "t1_a" "t3_x" [] none]
    More := none }

/-- A composite in which a comment and its only reply carry the same fullname. -/
def toyNested : PostAndComments toyExternal :=
  { Post := toyPost "t3_x"
    Comments := [toyComment "t1_a" "t3_x" [toyComment "t1_a" "t1_a" [] none] none]
    More := none }

/-- A composite in which a top-level comment carries the fullname of the post. -/
def toyClash : PostAndComments toyExternal :=
  { Post := toyPost "t3_x"
    Comments := [toyComment "t3_x" "t3_x" [] none]
    More := none }

/-- A listing envelope around a bucket set, without cursors. -/
def toyListing (t : things toyExternal) : rootListing toyExternal :=
  { Kind := kindListing, Data := { Things := t } }

/-- A listing holding the single post `t3_x`. -/
def toyPostListing : rootListing toyExternal :=
  toyListing { toyThings with Posts := [toyPost "t3_x"] }

/-- A listing holding no comment and one marker with two pending children. -/
def toyMoreListing : rootListing toyExternal :=
  toyListing { toyThings with Mores := [toyMore "more_1" "t3_x" ["t1_a", "t1_b"]] }

/-- A toy version of the listing-level JSON calls.  A listing is the byte 123
followed by the toy encoding of its children; the two-listing input `[91]`
stands for the pair of `toyPostListing` and `toyMoreListing`, and `[91, 93]` for
a pair whose first listing holds no post; a comment slice is encoded as the
byte 91, one byte 123 per comment, and the byte 93. -/
def toyJSONListing : JSONListing toyExternal where
  unmarshalRootListing := fun b =>
    match b with
    | 123 :: children =>
      match things.UnmarshalJSON toyJSON toyThings children with
      | (t, none) => .ok (toyListing t)
      | (_, some err) => .error err
    | _ => .error "cannot unmarshal into Go value of type reddit.rootListing"
  unmarshalRootListings := fun b =>
    match b with
    | [91] => .ok (toyPostListing, toyMoreListing)
    | [91, 93] => .ok (toyListing toyThings, toyMoreListing)
    | _ => .error "cannot unmarshal into Go value of type [2]reddit.rootListing"
  marshalComments := fun cs => (91 :: cs.map (fun _ => 123) ++ [93], none)

/-- A comment with two replies named `t1_a`, the first of which has itself a
reply named `t1_a`. -/
def toyFork : Comment toyExternal :=
  toyComment "t1_r" "t3_x"
    [toyComment "t1_a" "t1_r" [toyComment "t1_a" "t1_a" [] none] none,
     toyComment "t1_a" "t1_r" [] none] none

/-- A reply container holding one comment and a marker. -/
def toyReplies : Replies toyExternal :=
  { Comments := [toyComment "t1_a" "t3_x" [] none]
    More := some (toyMore "more_1" "t3_x" ["t1_y"]) }

/-- A comment named `t1_a` whose two replies are both named `t1_a`. -/
def toyDupRoot : Comment toyExternal :=
  toyComment "t1_a" "t3_x"
    [toyComment "t1_a" "t1_a" [] none, toyComment "t1_a" "t1_a" [] none] none

/-! ## Lemmas on the decoder -/

theorem kinds_distinct :
    [kindComment, kindMore, kindAccount, kindPost, kindSubreddit, kindModAction].Nodup := by
  decide

theorem appendThing_Comments (J : JSON E) (t : things E) (th : thing) :
    (things.appendThing J t th).Comments = t.Comments ++ (J.commentOf th).toList := by
  unfold things.appendThing JSON.commentOf
  by_cases h1 : th.Kind = kindComment
  · simp only [h1, if_true]
    cases J.unmarshalComment th.Data <;> simp [Except.toOption]
  · simp only [h1, if_false]
    repeat' split
    all_goals simp

theorem appendThing_Mores (J : JSON E) (t : things E) (th : thing) :
    (things.appendThing J t th).Mores = t.Mores ++ (J.moreOf th).toList := by
  unfold things.appendThing JSON.moreOf
  by_cases h1 : th.Kind = kindMore
  · simp only [h1, if_true]
    have n0 : kindMore ≠ kindComment := by decide
    simp only [n0, if_false]
    cases J.unmarshalMore th.Data <;> simp [Except.toOption]
  · simp only [h1, if_false]
    repeat' split
    all_goals simp

theorem appendThing_Users (J : JSON E) (t : things E) (th : thing) :
    (things.appendThing J t th).Users = t.Users ++ (J.userOf th).toList := by
  unfold things.appendThing JSON.userOf
  by_cases h1 : th.Kind = kindAccount
  · simp only [h1, if_true]
    have n0 : kindAccount ≠ kindComment := by decide
    have n1 : kindAccount ≠ kindMore := by decide
    simp only [n0, n1, if_false]
    cases J.unmarshalUser th.Data <;> simp [Except.toOption]
  · simp only [h1, if_false]
    repeat' split
    all_goals simp

theorem appendThing_Posts (J : JSON E) (t : things E) (th : thing) :
    (things.appendThing J t th).Posts = t.Posts ++ (J.postOf th).toList := by
  unfold things.appendThing JSON.postOf
  by_cases h1 : th.Kind = kindPost
  · simp only [h1, if_true]
    have n0 : kindPost ≠ kindComment := by decide
    have n1 : kindPost ≠ kindMore := by decide
    have n2 : kindPost ≠ kindAccount := by decide
    simp only [n0, n1, n2, if_false]
    cases J.unmarshalPost th.Data <;> simp [Except.toOption]
  · simp only [h1, if_false]
    repeat' split
    all_goals simp

theorem appendThing_Subreddits (J : JSON E) (t : things E) (th : thing) :
    (things.appendThing J t th).Subreddits = t.Subreddits ++ (J.subredditOf th).toList := by
  unfold things.appendThing JSON.subredditOf
  by_cases h1 : th.Kind = kindSubreddit
  · simp only [h1, if_true]
    have n0 : kindSubreddit ≠ kindComment := by decide
    have n1 : kindSubreddit ≠ kindMore := by decide
    have n2 : kindSubreddit ≠ kindAccount := by decide
    have n3 : kindSubreddit ≠ kindPost := by decide
    simp only [n0, n1, n2, n3, if_false]
    cases J.unmarshalSubreddit th.Data <;> simp [Except.toOption]
  · simp only [h1, if_false]
    repeat' split
    all_goals simp

theorem appendThing_ModActions (J : JSON E) (t : things E) (th : thing) :
    (things.appendThing J t th).ModActions = t.ModActions ++ (J.modActionOf th).toList := by
  unfold things.appendThing JSON.modActionOf
  by_cases h1 : th.Kind = kindModAction
  · simp only [h1, if_true]
    have n0 : kindModAction ≠ kindComment := by decide
    have n1 : kindModAction ≠ kindMore := by decide
    have n2 : kindModAction ≠ kindAccount := by decide
    have n3 : kindModAction ≠ kindPost := by decide
    have n4 : kindModAction ≠ kindSubreddit := by decide
    simp only [n0, n1, n2, n3, n4, if_false]
    cases J.unmarshalModAction th.Data <;> simp [Except.toOption]
  · simp only [h1, if_false]
    repeat' split
    all_goals simp

theorem foldl_appendThing_Comments (J : JSON E) (xs : List thing) (t : things E) :
    (xs.foldl (things.appendThing J) t).Comments = t.Comments ++ xs.filterMap J.commentOf := by
  induction xs generalizing t with
  | nil => simp
  | cons th xs ih =>
    rw [List.foldl_cons, ih, appendThing_Comments]
    cases h : J.commentOf th <;> simp [List.filterMap_cons, h]

theorem foldl_appendThing_Mores (J : JSON E) (xs : List thing) (t : things E) :
    (xs.foldl (things.appendThing J) t).Mores = t.Mores ++ xs.filterMap J.moreOf := by
  induction xs generalizing t with
  | nil => simp
  | cons th xs ih =>
    rw [List.foldl_cons, ih, appendThing_Mores]
    cases h : J.moreOf th <;> simp [List.filterMap_cons, h]

theorem foldl_appendThing_Users (J : JSON E) (xs : List thing) (t : things E) :
    (xs.foldl (things.appendThing J) t).Users = t.Users ++ xs.filterMap J.userOf := by
  induction xs generalizing t with
  | nil => simp
  | cons th xs ih =>
    rw [List.foldl_cons, ih, appendThing_Users]
    cases h : J.userOf th <;> simp [List.filterMap_cons, h]

theorem foldl_appendThing_Posts (J : JSON E) (xs : List thing) (t : things E) :
    (xs.foldl (things.appendThing J) t).Posts = t.Posts ++ xs.filterMap J.postOf := by
  induction xs generalizing t with
  | nil => simp
  | cons th xs ih =>
    rw [List.foldl_cons, ih, appendThing_Posts]
    cases h : J.postOf th <;> simp [List.filterMap_cons, h]

theorem foldl_appendThing_Subreddits (J : JSON E) (xs : List thing) (t : things E) :
    (xs.foldl (things.appendThing J) t).Subreddits = t.Subreddits ++ xs.filterMap J.subredditOf := by
  induction xs generalizing t with
  | nil => simp
  | cons th xs ih =>
    rw [List.foldl_cons, ih, appendThing_Subreddits]
    cases h : J.subredditOf th <;> simp [List.filterMap_cons, h]

theorem foldl_appendThing_ModActions (J : JSON E) (xs : List thing) (t : things E) :
    (xs.foldl (things.appendThing J) t).ModActions = t.ModActions ++ xs.filterMap J.modActionOf := by
  induction xs generalizing t with
  | nil => simp
  | cons th xs ih =>
    rw [List.foldl_cons, ih, appendThing_ModActions]
    cases h : J.modActionOf th <;> simp [List.filterMap_cons, h]

theorem UnmarshalJSON_of_ok (J : JSON E) (t : things E) (b : Bytes) (xs : List thing)
    (h : J.unmarshalThings b = .ok xs) :
    things.UnmarshalJSON J t b = (xs.foldl (things.appendThing J) t.init, none) := by
  simp [things.UnmarshalJSON, h]

theorem filterMap_commentOf_wellformed (J : JSON E) (xs : List thing)
    (h : ∀ th ∈ xs, th.Kind = kindComment ∧ (J.unmarshalComment th.Data).toOption.isSome) :
    List.Forall₂ (fun th c => J.unmarshalComment th.Data = .ok c) xs (xs.filterMap J.commentOf) := by
  induction xs with
  | nil => simp
  | cons th xs ih =>
    have h1 := h th (List.mem_cons_self _ _)
    have h2 : ∀ th ∈ xs, th.Kind = kindComment ∧ (J.unmarshalComment th.Data).toOption.isSome :=
      fun x hx => h x (List.mem_cons_of_mem _ hx)
    cases hd : J.unmarshalComment th.Data with
    | error e => simp [hd, Except.toOption] at h1
    | ok c =>
      have : J.commentOf th = some c := by simp [JSON.commentOf, h1.1, hd, Except.toOption]
      rw [List.filterMap_cons, this]
      exact List.Forall₂.cons hd (ih h2)

/-! ## Claims on the decoder -/

/-- Claim C1.  When the input parses as the envelope array `xs`, each of the six
buckets of the receiver is the in-order subsequence of `xs` of the envelopes
carrying that bucket's tag whose payload decodes (so an envelope of another kind
or with a failing payload is in no bucket); and if all `N` envelopes are
well-formed comments the comment bucket has length `N` and its `i`-th element is
the decoding of the `i`-th envelope. -/
theorem things_UnmarshalJSON_buckets (J : JSON E) (t : things E) (b : Bytes) (xs : List thing)
    (h : J.unmarshalThings b = .ok xs) :
    (things.UnmarshalJSON J t b).1.Comments = xs.filterMap J.commentOf ∧
    (things.UnmarshalJSON J t b).1.Mores = xs.filterMap J.moreOf ∧
    (things.UnmarshalJSON J t b).1.Users = xs.filterMap J.userOf ∧
    (things.UnmarshalJSON J t b).1.Posts = xs.filterMap J.postOf ∧
    (things.UnmarshalJSON J t b).1.Subreddits = xs.filterMap J.subredditOf ∧
    (things.UnmarshalJSON J t b).1.ModActions = xs.filterMap J.modActionOf ∧
    ((∀ th ∈ xs, th.Kind = kindComment ∧ (J.unmarshalComment th.Data).toOption.isSome) →
      (things.UnmarshalJSON J t b).1.Comments.length = xs.length ∧
      List.Forall₂ (fun th c => J.unmarshalComment th.Data = .ok c) xs
        (things.UnmarshalJSON J t b).1.Comments) := by
  rw [UnmarshalJSON_of_ok J t b xs h]
  have hc : (xs.foldl (things.appendThing J) t.init).Comments = xs.filterMap J.commentOf := by
    rw [foldl_appendThing_Comments]; rfl
  refine ⟨hc, ?_, ?_, ?_, ?_, ?_, fun hw => ?_⟩
  · rw [foldl_appendThing_Mores]; rfl
  · rw [foldl_appendThing_Users]; rfl
  · rw [foldl_appendThing_Posts]; rfl
  · rw [foldl_appendThing_Subreddits]; rfl
  · rw [foldl_appendThing_ModActions]; rfl
  · have hf := filterMap_commentOf_wellformed J xs hw
    simp only [hc]
    exact ⟨hf.length_eq.symm, hf⟩

/-- Witness of C1: the toy input `[0, 3, 136, 8]` is the array of a comment, a
post, a comment with a failing payload and a comment. -/
theorem things_UnmarshalJSON_buckets_witness :
    toyJSON.unmarshalThings [0, 3, 136, 8] = .ok toyEnvelopes ∧
    (things.UnmarshalJSON toyJSON toyThings [0, 3, 136, 8]).1.Comments
        = toyEnvelopes.filterMap toyJSON.commentOf ∧
    (things.UnmarshalJSON toyJSON toyThings [0, 3, 136, 8]).1.Mores
        = toyEnvelopes.filterMap toyJSON.moreOf ∧
    (things.UnmarshalJSON toyJSON toyThings [0, 3, 136, 8]).1.Users
        = toyEnvelopes.filterMap toyJSON.userOf ∧
    (things.UnmarshalJSON toyJSON toyThings [0, 3, 136, 8]).1.Posts
        = toyEnvelopes.filterMap toyJSON.postOf ∧
    (things.UnmarshalJSON toyJSON toyThings [0, 3, 136, 8]).1.Subreddits
        = toyEnvelopes.filterMap toyJSON.subredditOf ∧
    (things.UnmarshalJSON toyJSON toyThings [0, 3, 136, 8]).1.ModActions
        = toyEnvelopes.filterMap toyJSON.modActionOf ∧
    ((∀ th ∈ toyEnvelopes,
        th.Kind = kindComment ∧ (toyJSON.unmarshalComment th.Data).toOption.isSome) →
      (things.UnmarshalJSON toyJSON toyThings [0, 3, 136, 8]).1.Comments.length
          = toyEnvelopes.length ∧
      List.Forall₂ (fun th c => toyJSON.unmarshalComment th.Data = .ok c) toyEnvelopes
        (things.UnmarshalJSON toyJSON toyThings [0, 3, 136, 8]).1.Comments) :=
  ⟨rfl, things_UnmarshalJSON_buckets toyJSON toyThings [0, 3, 136, 8] toyEnvelopes rfl⟩

/-- Claim C2.  When the input parses as an array of envelopes, whatever their
kinds and payloads, `things.UnmarshalJSON` returns the nil error. -/
theorem things_UnmarshalJSON_no_error (J : JSON E) (t : things E) (b : Bytes) (xs : List thing)
    (h : J.unmarshalThings b = .ok xs) :
    (things.UnmarshalJSON J t b).2 = none := by
  rw [UnmarshalJSON_of_ok J t b xs h]

/-- Witness of C2, at an array holding a post and a comment with a failing payload. -/
theorem things_UnmarshalJSON_no_error_witness :
    toyJSON.unmarshalThings [0, 3, 136, 8] = .ok toyEnvelopes ∧
    (things.UnmarshalJSON toyJSON toyThings [0, 3, 136, 8]).2 = none :=
  ⟨rfl, things_UnmarshalJSON_no_error toyJSON toyThings [0, 3, 136, 8] toyEnvelopes rfl⟩

/-- Claim C3.  Let `K` be one of the six known kinds and `e` an envelope of an
unknown kind, or of a known kind other than `K` with a malformed payload.  The
bucket of kind `K` decoded from an array with `e` inserted at any position
(`ys ++ e :: zs`) equals the one decoded from the array without it (`ys ++ zs`),
whatever the receivers held before. -/
theorem things_UnmarshalJSON_isolation (J : JSON E) (t u : things E) (b b' : Bytes)
    (ys zs : List thing) (e : thing) (K : String)
    (hK : K ∈ knownKinds)
    (he : e.Kind ∉ knownKinds ∨ (e.Kind ∈ knownKinds ∧ e.Kind ≠ K ∧ J.malformed e))
    (hb : J.unmarshalThings b = .ok (ys ++ zs))
    (hb' : J.unmarshalThings b' = .ok (ys ++ e :: zs)) :
    things.sameBucket K (things.UnmarshalJSON J t b').1 (things.UnmarshalJSON J u b).1 := by
  rw [UnmarshalJSON_of_ok J t b' _ hb', UnmarshalJSON_of_ok J u b _ hb]
  have hne : e.Kind ≠ K := by
    rcases he with he | he
    · intro h; exact he (h ▸ hK)
    · exact he.2.1
  simp only [things.sameBucket, foldl_appendThing_Comments, foldl_appendThing_Mores,
    foldl_appendThing_Users, foldl_appendThing_Posts, foldl_appendThing_Subreddits,
    foldl_appendThing_ModActions, things.init, List.nil_append, List.filterMap_append,
    List.filterMap_cons]
  refine ⟨?_, ?_, ?_, ?_, ?_, ?_⟩ <;> intro hk <;> subst hk
  · simp [JSON.commentOf, hne]
  · simp [JSON.moreOf, hne]
  · simp [JSON.userOf, hne]
  · simp [JSON.postOf, hne]
  · simp [JSON.subredditOf, hne]
  · simp [JSON.modActionOf, hne]

/-- Witness of C3: a post with a failing payload between two comments. -/
theorem things_UnmarshalJSON_isolation_witness :
    kindComment ∈ knownKinds ∧
    ((⟨kindPost, [131]⟩ : thing).Kind ∉ knownKinds ∨
      ((⟨kindPost, [131]⟩ : thing).Kind ∈ knownKinds ∧
        (⟨kindPost, [131]⟩ : thing).Kind ≠ kindComment ∧
        toyJSON.malformed ⟨kindPost, [131]⟩)) ∧
    toyJSON.unmarshalThings [0, 8] = .ok ([⟨kindComment, [0]⟩] ++ [⟨kindComment, [8]⟩]) ∧
    toyJSON.unmarshalThings [0, 131, 8]
      = .ok ([⟨kindComment, [0]⟩] ++ ⟨kindPost, [131]⟩ :: [⟨kindComment, [8]⟩]) ∧
    things.sameBucket kindComment (things.UnmarshalJSON toyJSON toyThings [0, 131, 8]).1
      (things.UnmarshalJSON toyJSON toyThings [0, 8]).1 :=
  have hK : kindComment ∈ knownKinds := by decide
  have he : (⟨kindPost, [131]⟩ : thing).Kind ∉ knownKinds ∨
      ((⟨kindPost, [131]⟩ : thing).Kind ∈ knownKinds ∧
        (⟨kindPost, [131]⟩ : thing).Kind ≠ kindComment ∧
        toyJSON.malformed ⟨kindPost, [131]⟩) :=
    Or.inr ⟨by decide, by decide, Or.inr (Or.inr (Or.inr (Or.inl ⟨rfl, rfl⟩)))⟩
  ⟨hK, he, rfl, rfl,
    things_UnmarshalJSON_isolation toyJSON toyThings toyThings [0, 8] [0, 131, 8]
      [⟨kindComment, [0]⟩] [⟨kindComment, [8]⟩] ⟨kindPost, [131]⟩ kindComment hK he rfl rfl⟩

/-! ## Lemmas on the tree walk -/

theorem visitEach_eq_map (t : String) (g : Comment E → Comment E) (cs : List (Comment E)) :
    visitEach t g cs = cs.map (Comment.visit t g) := by
  induction cs with
  | nil => simp [visitEach]
  | cons c cs ih => simp [visitEach, ih]

theorem allFullIDs_cons (c : Comment E) (cs : List (Comment E)) :
    allFullIDs (c :: cs) = c.allFullIDs ++ allFullIDs cs := by
  simp [allFullIDs]

theorem allFullIDs_append (cs ds : List (Comment E)) :
    allFullIDs (cs ++ ds) = allFullIDs cs ++ allFullIDs ds := by
  induction cs with
  | nil => simp [allFullIDs]
  | cons c cs ih => simp [allFullIDs, ih]

mutual
theorem Comment.addCommentToReplies_eq_visit (x : Comment E) :
    ∀ c : Comment E, c.addCommentToReplies x = c.visit x.ParentID (fun d => d.appendReply x)
  | .mk f cs m => by
    unfold Comment.addCommentToReplies Comment.visit
    rw [addCommentToEachReply_eq_visitEach x cs]
    rfl
theorem addCommentToEachReply_eq_visitEach (x : Comment E) :
    ∀ cs : List (Comment E),
      addCommentToEachReply cs x = visitEach x.ParentID (fun d => d.appendReply x) cs
  | [] => by simp [addCommentToEachReply, visitEach]
  | c :: cs => by
    unfold addCommentToEachReply visitEach
    rw [Comment.addCommentToReplies_eq_visit x c, addCommentToEachReply_eq_visitEach x cs]
end

mutual
theorem Comment.addMoreToReplies_eq_visit (x : More) :
    ∀ c : Comment E, c.addMoreToReplies x = c.visit x.ParentID (Comment.setMore x)
  | .mk f cs m => by
    unfold Comment.addMoreToReplies Comment.visit
    rw [addMoreToEachReply_eq_visitEach x cs]
    rfl
theorem addMoreToEachReply_eq_visitEach (x : More) :
    ∀ cs : List (Comment E),
      addMoreToEachReply cs x = visitEach x.ParentID (Comment.setMore x) cs
  | [] => by simp [addMoreToEachReply, visitEach]
  | c :: cs => by
    unfold addMoreToEachReply visitEach
    rw [Comment.addMoreToReplies_eq_visit x c, addMoreToEachReply_eq_visitEach x cs]
end

mutual
theorem Comment.visit_of_not_mem (t : String) (g : Comment E → Comment E) :
    ∀ c : Comment E, t ∉ c.allFullIDs → c.visit t g = c
  | .mk f cs m => by
    intro h
    simp only [Comment.allFullIDs, List.mem_cons, not_or] at h
    unfold Comment.visit
    rw [if_neg (fun e => h.1 e.symm), visitEach_of_not_mem t g cs h.2]
theorem visitEach_of_not_mem (t : String) (g : Comment E → Comment E) :
    ∀ cs : List (Comment E), t ∉ allFullIDs cs → visitEach t g cs = cs
  | [] => by simp [visitEach]
  | c :: cs => by
    intro h
    simp only [allFullIDs, List.mem_append, not_or] at h
    unfold visitEach
    rw [Comment.visit_of_not_mem t g c h.1, visitEach_of_not_mem t g cs h.2]
end
/-! ## Lemmas on paths -/

theorem map_eq_set_of_fixed {α : Type} (F : α → α) (l : List α) (i : Nat) (d : α)
    (hi : l[i]? = some d)
    (hfix : ∀ j d', j ≠ i → l[j]? = some d' → F d' = d') :
    l.map F = l.set i (F d) := by
  apply List.ext_getElem?
  intro j
  by_cases hj : j = i
  · subst hj
    have hlt : j < l.length := (List.getElem?_eq_some.1 hi).1
    rw [List.getElem?_map, hi, List.getElem?_set_self hlt]
    rfl
  · rw [List.getElem?_map, List.getElem?_set_ne (Ne.symm hj)]
    cases h : l[j]? with
    | none => rfl
    | some d' => simp [hfix j d' hj h]

theorem allFullIDs_subset_of_getElem? {cs : List (Comment E)} {i : Nat} {d : Comment E}
    (h : cs[i]? = some d) {t : String} (ht : t ∈ d.allFullIDs) : t ∈ allFullIDs cs := by
  obtain ⟨l1, l2, rfl⟩ := List.append_of_mem (List.getElem?_mem h)
  rw [allFullIDs_append, allFullIDs_cons]
  simp [ht]

theorem Comment.FullID_mem_allFullIDs (c : Comment E) : c.FullID ∈ c.allFullIDs := by
  cases c with
  | mk f cs m => simp [Comment.allFullIDs, Comment.FullID, Comment.fields]

theorem Comment.nodeAt_cons (f : CommentFields E) (cs : List (Comment E)) (m : Option More)
    (i : Nat) (p : List Nat) :
    (Comment.mk f cs m).nodeAt (i :: p)
      = match cs[i]? with
        | none => none
        | some d => d.nodeAt p := rfl

theorem Comment.nodeAt_mem_allFullIDs :
    ∀ (p : List Nat) (c A : Comment E), c.nodeAt p = some A → A.FullID ∈ c.allFullIDs
  | [], c, A, h => by
    simp only [Comment.nodeAt, Option.some.injEq] at h
    subst h
    exact c.FullID_mem_allFullIDs
  | i :: p, .mk f cs m, A, h => by
    rw [Comment.nodeAt_cons] at h
    cases hd : cs[i]? with
    | none => simp [hd] at h
    | some d =>
      simp only [hd] at h
      have := Comment.nodeAt_mem_allFullIDs p d A h
      simp only [Comment.allFullIDs, List.mem_cons]
      exact Or.inr (allFullIDs_subset_of_getElem? hd this)

theorem forest_nodeAt_mem_allFullIDs (cs : List (Comment E)) (p : List Nat) (A : Comment E)
    (h : nodeAt cs p = some A) : A.FullID ∈ allFullIDs cs := by
  cases p with
  | nil => simp [nodeAt] at h
  | cons i p =>
    simp only [nodeAt] at h
    cases hd : cs[i]? with
    | none => simp [hd] at h
    | some d =>
      simp only [hd] at h
      exact allFullIDs_subset_of_getElem? hd (Comment.nodeAt_mem_allFullIDs p d A h)

mutual
theorem Comment.exists_nodeAt_of_mem (t : String) :
    ∀ c : Comment E, t ∈ c.allFullIDs → ∃ p A, c.nodeAt p = some A ∧ A.FullID = t
  | .mk f cs m => by
    intro h
    simp only [Comment.allFullIDs, List.mem_cons] at h
    rcases h with h | h
    · exact ⟨[], .mk f cs m, rfl, h.symm⟩
    · obtain ⟨i, d, p, A, hi, hA, ht⟩ := exists_nodeAt_of_mem_forest t cs h
      refine ⟨i :: p, A, ?_, ht⟩
      rw [Comment.nodeAt_cons, hi]
      exact hA
theorem exists_nodeAt_of_mem_forest (t : String) :
    ∀ cs : List (Comment E), t ∈ allFullIDs cs →
      ∃ (i : Nat) (d : Comment E) (p : List Nat) (A : Comment E),
        cs[i]? = some d ∧ d.nodeAt p = some A ∧ A.FullID = t
  | [] => by simp [allFullIDs]
  | c :: cs => by
    intro h
    simp only [allFullIDs, List.mem_append] at h
    rcases h with h | h
    · obtain ⟨p, A, hA, ht⟩ := Comment.exists_nodeAt_of_mem t c h
      exact ⟨0, c, p, A, List.getElem?_cons_zero, hA, ht⟩
    · obtain ⟨i, d, p, A, hi, hA, ht⟩ := exists_nodeAt_of_mem_forest t cs h
      exact ⟨i + 1, d, p, A, by rw [List.getElem?_cons_succ]; exact hi, hA, ht⟩
end

theorem Comment.visit_cons (t : String) (g : Comment E → Comment E) (f : CommentFields E)
    (cs : List (Comment E)) (m : Option More) :
    (Comment.mk f cs m).visit t g
      = if f.FullID = t then g (.mk f cs m) else .mk f (cs.map (Comment.visit t g)) m := by
  rw [Comment.visit, visitEach_eq_map]

theorem Comment.modifyAt_cons (g : Comment E → Comment E) (f : CommentFields E)
    (cs : List (Comment E)) (m : Option More) (i : Nat) (p : List Nat) :
    (Comment.mk f cs m).modifyAt g (i :: p)
      = match cs[i]? with
        | none => .mk f cs m
        | some d => .mk f (cs.set i (d.modifyAt g p)) m := rfl

/-- If a node named `t` sits at path `p` and every node named `t` lies at or
below it, the walk changes that node only. -/
theorem Comment.visit_eq_modifyAt (t : String) (g : Comment E → Comment E) :
    ∀ (p : List Nat) (c A : Comment E), c.nodeAt p = some A → A.FullID = t →
      (∀ q X, c.nodeAt q = some X → X.FullID = t → p <+: q) →
      c.visit t g = c.modifyAt g p
  | [], .mk f cs m, A, hA, ht, _ => by
    simp only [Comment.nodeAt, Option.some.injEq] at hA
    subst hA
    rw [Comment.visit_cons, if_pos (by simpa [Comment.FullID, Comment.fields] using ht)]
    rfl
  | i :: p, .mk f cs m, A, hA, ht, hall => by
    rw [Comment.nodeAt_cons] at hA
    cases hd : cs[i]? with
    | none => simp [hd] at hA
    | some d =>
      simp only [hd] at hA
      have hroot : f.FullID ≠ t := by
        intro e
        have := hall [] (.mk f cs m) rfl (by simpa [Comment.FullID, Comment.fields] using e)
        simp at this
      rw [Comment.visit_cons, if_neg hroot, Comment.modifyAt_cons]
      simp only [hd]
      have hrec : d.visit t g = d.modifyAt g p := by
        apply Comment.visit_eq_modifyAt t g p d A hA ht
        intro q X hX hXt
        have := hall (i :: q) X (by rw [Comment.nodeAt_cons, hd]; exact hX) hXt
        exact (List.cons_prefix_cons.1 this).2
      rw [← hrec]
      congr 1
      apply map_eq_set_of_fixed _ _ _ _ hd
      intro j d' hj hd'
      apply Comment.visit_of_not_mem
      intro hmem
      obtain ⟨q, X, hX, hXt⟩ := Comment.exists_nodeAt_of_mem t d' hmem
      have := hall (j :: q) X (by rw [Comment.nodeAt_cons, hd']; exact hX) hXt
      exact hj (List.cons_prefix_cons.1 this).1.symm

/-- Forest version of `Comment.visit_eq_modifyAt`. -/
theorem visitEach_eq_modifyAt (t : String) (g : Comment E → Comment E)
    (cs : List (Comment E)) (p : List Nat) (A : Comment E)
    (hA : nodeAt cs p = some A) (ht : A.FullID = t)
    (hall : ∀ q X, nodeAt cs q = some X → X.FullID = t → p <+: q) :
    visitEach t g cs = modifyAt g cs p := by
  cases p with
  | nil => simp [nodeAt] at hA
  | cons i p =>
    simp only [nodeAt] at hA
    cases hd : cs[i]? with
    | none => simp [hd] at hA
    | some d =>
      simp only [hd] at hA
      rw [visitEach_eq_map]
      simp only [modifyAt, hd]
      have hrec : d.visit t g = d.modifyAt g p := by
        apply Comment.visit_eq_modifyAt t g p d A hA ht
        intro q X hX hXt
        have := hall (i :: q) X (by simp only [nodeAt, hd]; exact hX) hXt
        exact (List.cons_prefix_cons.1 this).2
      rw [← hrec]
      apply map_eq_set_of_fixed _ _ _ _ hd
      intro j d' hj hd'
      apply Comment.visit_of_not_mem
      intro hmem
      obtain ⟨q, X, hX, hXt⟩ := Comment.exists_nodeAt_of_mem t d' hmem
      have := hall (j :: q) X (by simp only [nodeAt, hd']; exact hX) hXt
      exact hj (List.cons_prefix_cons.1 this).1.symm
/-! ## Lemmas on unique fullnames -/

theorem nodup_allFullIDs_of_getElem? {cs : List (Comment E)} {i : Nat} {d : Comment E}
    (h : cs[i]? = some d) (hn : (allFullIDs cs).Nodup) : d.allFullIDs.Nodup := by
  obtain ⟨l1, l2, rfl⟩ := List.append_of_mem (List.getElem?_mem h)
  rw [allFullIDs_append, allFullIDs_cons] at hn
  exact (List.nodup_append.1 (List.nodup_append.1 hn).2.1).1

theorem not_mem_two_subtrees (t : String) :
    ∀ (cs : List (Comment E)) (i j : Nat) (a b : Comment E), (allFullIDs cs).Nodup →
      cs[i]? = some a → cs[j]? = some b → i ≠ j → t ∈ a.allFullIDs → t ∈ b.allFullIDs → False
  | [], i, _, _, _, _, hi, _, _, _, _ => by simp at hi
  | c :: cs, 0, 0, _, _, _, _, _, hij, _, _ => hij rfl
  | c :: cs, 0, j + 1, a, b, hn, hi, hj, _, ha, hb => by
    rw [allFullIDs_cons] at hn
    simp only [List.getElem?_cons_zero, Option.some.injEq] at hi
    subst hi
    rw [List.getElem?_cons_succ] at hj
    exact (List.nodup_append.1 hn).2.2 ha (allFullIDs_subset_of_getElem? hj hb)
  | c :: cs, i + 1, 0, a, b, hn, hi, hj, _, ha, hb => by
    rw [allFullIDs_cons] at hn
    simp only [List.getElem?_cons_zero, Option.some.injEq] at hj
    subst hj
    rw [List.getElem?_cons_succ] at hi
    exact (List.nodup_append.1 hn).2.2 hb (allFullIDs_subset_of_getElem? hi ha)
  | c :: cs, i + 1, j + 1, a, b, hn, hi, hj, hij, ha, hb => by
    rw [allFullIDs_cons] at hn
    rw [List.getElem?_cons_succ] at hi hj
    exact not_mem_two_subtrees t cs i j a b (List.nodup_append.1 hn).2.1 hi hj
      (fun e => hij (by rw [e])) ha hb

/-- With pairwise distinct fullnames a fullname determines the path of its node. -/
theorem Comment.nodeAt_unique :
    ∀ (p q : List Nat) (c A X : Comment E), c.allFullIDs.Nodup →
      c.nodeAt p = some A → c.nodeAt q = some X → X.FullID = A.FullID → p = q
  | [], [], _, _, _, _, _, _, _ => rfl
  | [], j :: q, .mk f cs m, A, X, hn, hA, hX, he => by
    exfalso
    simp only [Comment.nodeAt, Option.some.injEq] at hA
    subst hA
    have hmem := Comment.nodeAt_mem_allFullIDs (j :: q) (.mk f cs m) X hX
    rw [Comment.nodeAt_cons] at hX
    cases hd : cs[j]? with
    | none => simp [hd] at hX
    | some d =>
      simp only [hd] at hX
      have h1 := allFullIDs_subset_of_getElem? hd (Comment.nodeAt_mem_allFullIDs q d X hX)
      simp only [Comment.allFullIDs, List.nodup_cons] at hn
      rw [he] at h1
      exact hn.1 h1
  | i :: p, [], .mk f cs m, A, X, hn, hA, hX, he => by
    exfalso
    simp only [Comment.nodeAt, Option.some.injEq] at hX
    subst hX
    rw [Comment.nodeAt_cons] at hA
    cases hd : cs[i]? with
    | none => simp [hd] at hA
    | some d =>
      simp only [hd] at hA
      have h1 := allFullIDs_subset_of_getElem? hd (Comment.nodeAt_mem_allFullIDs p d A hA)
      simp only [Comment.allFullIDs, List.nodup_cons] at hn
      rw [← he] at h1
      exact hn.1 h1
  | i :: p, j :: q, .mk f cs m, A, X, hn, hA, hX, he => by
    rw [Comment.nodeAt_cons] at hA hX
    simp only [Comment.allFullIDs, List.nodup_cons] at hn
    cases hd : cs[i]? with
    | none => simp [hd] at hA
    | some d =>
      cases hd' : cs[j]? with
      | none => simp [hd'] at hX
      | some d' =>
        simp only [hd] at hA
        simp only [hd'] at hX
        have hAm := Comment.nodeAt_mem_allFullIDs p d A hA
        have hXm := Comment.nodeAt_mem_allFullIDs q d' X hX
        by_cases hij : i = j
        · subst hij
          rw [hd] at hd'
          simp only [Option.some.injEq] at hd'
          subst hd'
          rw [Comment.nodeAt_unique p q d A X (nodup_allFullIDs_of_getElem? hd hn.2) hA hX he]
        · exfalso
          rw [he] at hXm
          exact not_mem_two_subtrees _ cs i j d d' hn.2 hd hd' hij hAm hXm

/-- Forest version of `Comment.nodeAt_unique`. -/
theorem forest_nodeAt_unique (cs : List (Comment E)) (p q : List Nat) (A X : Comment E)
    (hn : (allFullIDs cs).Nodup) (hA : nodeAt cs p = some A) (hX : nodeAt cs q = some X)
    (he : X.FullID = A.FullID) : p = q := by
  cases p with
  | nil => simp [nodeAt] at hA
  | cons i p =>
    cases q with
    | nil => simp [nodeAt] at hX
    | cons j q =>
      simp only [nodeAt] at hA hX
      cases hd : cs[i]? with
      | none => simp [hd] at hA
      | some d =>
        cases hd' : cs[j]? with
        | none => simp [hd'] at hX
        | some d' =>
          simp only [hd] at hA
          simp only [hd'] at hX
          have hAm := Comment.nodeAt_mem_allFullIDs p d A hA
          have hXm := Comment.nodeAt_mem_allFullIDs q d' X hX
          by_cases hij : i = j
          · subst hij
            rw [hd] at hd'
            simp only [Option.some.injEq] at hd'
            subst hd'
            rw [Comment.nodeAt_unique p q d A X (nodup_allFullIDs_of_getElem? hd hn) hA hX he]
          · exfalso
            rw [he] at hXm
            exact not_mem_two_subtrees _ cs i j d d' hn hd hd' hij hAm hXm
/-! ## Lemmas on replacing the node at a path -/

theorem length_modifyAt (g : Comment E → Comment E) (cs : List (Comment E)) (p : List Nat) :
    (modifyAt g cs p).length = cs.length := by
  cases p with
  | nil => rfl
  | cons i p =>
    simp only [modifyAt]
    cases cs[i]? <;> simp

theorem Comment.nodeAt_modifyAt_self (g : Comment E → Comment E) :
    ∀ (p : List Nat) (c A : Comment E), c.nodeAt p = some A →
      (c.modifyAt g p).nodeAt p = some (g A)
  | [], c, A, h => by
    simp only [Comment.nodeAt, Option.some.injEq] at h
    subst h
    cases c
    rfl
  | i :: p, .mk f cs m, A, h => by
    rw [Comment.nodeAt_cons] at h
    cases hd : cs[i]? with
    | none => simp [hd] at h
    | some d =>
      simp only [hd] at h
      have hlt : i < cs.length := (List.getElem?_eq_some.1 hd).1
      rw [Comment.modifyAt_cons]
      simp only [hd]
      rw [Comment.nodeAt_cons, List.getElem?_set_self hlt]
      exact Comment.nodeAt_modifyAt_self g p d A h

theorem forest_nodeAt_modifyAt_self (g : Comment E → Comment E) (cs : List (Comment E))
    (p : List Nat) (A : Comment E) (h : nodeAt cs p = some A) :
    nodeAt (modifyAt g cs p) p = some (g A) := by
  cases p with
  | nil => simp [nodeAt] at h
  | cons i p =>
    simp only [nodeAt] at h
    cases hd : cs[i]? with
    | none => simp [hd] at h
    | some d =>
      simp only [hd] at h
      have hlt : i < cs.length := (List.getElem?_eq_some.1 hd).1
      simp only [modifyAt, hd, nodeAt, List.getElem?_set_self hlt]
      exact Comment.nodeAt_modifyAt_self g p d A h

/-- Replacing the node at `p` by its image under a map that keeps the existing
children leaves every other node with the same fields, marker and number of
children, and leaves it entirely unchanged unless it is an ancestor of `p`. -/
theorem Comment.nodeAt_modifyAt_of_ne (g : Comment E → Comment E)
    (hg : ∀ (c : Comment E) (i : Nat) (d : Comment E),
      c.Replies.Comments[i]? = some d → (g c).Replies.Comments[i]? = some d) :
    ∀ (p q : List Nat) (c X : Comment E), q ≠ p → c.nodeAt q = some X →
      ∃ Y, (c.modifyAt g p).nodeAt q = some Y ∧ Y.sameNode X ∧ (¬ q <+: p → Y = X)
  | [], [], _, _, hne, _ => absurd rfl hne
  | [], j :: q, .mk f cs m, X, _, hX => by
    refine ⟨X, ?_, ⟨rfl, rfl, rfl⟩, fun _ => rfl⟩
    rw [Comment.nodeAt_cons] at hX
    cases hd : cs[j]? with
    | none => simp [hd] at hX
    | some d =>
      simp only [hd] at hX
      have := hg (.mk f cs m) j d hd
      simp only [Comment.modifyAt, Comment.nodeAt, this]
      exact hX
  | i :: p, q, .mk f cs m, X, hne, hX => by
    rw [Comment.modifyAt_cons]
    cases hd : cs[i]? with
    | none => exact ⟨X, hX, ⟨rfl, rfl, rfl⟩, fun _ => rfl⟩
    | some d =>
      simp only []
      cases q with
      | nil =>
        simp only [Comment.nodeAt, Option.some.injEq] at hX
        subst hX
        refine ⟨_, rfl, ⟨rfl, rfl, ?_⟩, fun h => absurd List.nil_prefix h⟩
        simp [Comment.Replies]
      | cons j q =>
        rw [Comment.nodeAt_cons] at hX
        rw [Comment.nodeAt_cons]
        by_cases hij : j = i
        · subst hij
          have hlt : j < cs.length := (List.getElem?_eq_some.1 hd).1
          simp only [hd] at hX
          rw [List.getElem?_set_self hlt]
          have hqp : q ≠ p := fun e => hne (by rw [e])
          obtain ⟨Y, hY, hs, hd'⟩ := Comment.nodeAt_modifyAt_of_ne g hg p q d X hqp hX
          exact ⟨Y, hY, hs, fun h => hd' (fun h' => h (List.cons_prefix_cons.2 ⟨rfl, h'⟩))⟩
        · rw [List.getElem?_set_ne (Ne.symm hij)]
          exact ⟨X, hX, ⟨rfl, rfl, rfl⟩, fun _ => rfl⟩

/-- Forest version of `Comment.nodeAt_modifyAt_of_ne`. -/
theorem forest_nodeAt_modifyAt_of_ne (g : Comment E → Comment E)
    (hg : ∀ (c : Comment E) (i : Nat) (d : Comment E),
      c.Replies.Comments[i]? = some d → (g c).Replies.Comments[i]? = some d)
    (cs : List (Comment E)) (p q : List Nat) (X : Comment E) (hne : q ≠ p)
    (hX : nodeAt cs q = some X) :
    ∃ Y, nodeAt (modifyAt g cs p) q = some Y ∧ Y.sameNode X ∧ (¬ q <+: p → Y = X) := by
  cases p with
  | nil => exact ⟨X, hX, ⟨rfl, rfl, rfl⟩, fun _ => rfl⟩
  | cons i p =>
    simp only [modifyAt]
    cases hd : cs[i]? with
    | none => exact ⟨X, hX, ⟨rfl, rfl, rfl⟩, fun _ => rfl⟩
    | some d =>
      simp only []
      cases q with
      | nil => simp [nodeAt] at hX
      | cons j q =>
        simp only [nodeAt] at hX ⊢
        by_cases hij : j = i
        · subst hij
          have hlt : j < cs.length := (List.getElem?_eq_some.1 hd).1
          simp only [hd] at hX
          rw [List.getElem?_set_self hlt]
          have hqp : q ≠ p := fun e => hne (by rw [e])
          obtain ⟨Y, hY, hs, hd'⟩ := Comment.nodeAt_modifyAt_of_ne g hg p q d X hqp hX
          exact ⟨Y, hY, hs, fun h => hd' (fun h' => h (List.cons_prefix_cons.2 ⟨rfl, h'⟩))⟩
        · rw [List.getElem?_set_ne (Ne.symm hij)]
          exact ⟨X, hX, ⟨rfl, rfl, rfl⟩, fun _ => rfl⟩

theorem Comment.appendReply_keeps (x c : Comment E) (i : Nat) (d : Comment E)
    (h : c.Replies.Comments[i]? = some d) : (c.appendReply x).Replies.Comments[i]? = some d := by
  cases c with
  | mk f cs m =>
    simp only [Comment.Replies] at h
    simp only [Comment.appendReply, Comment.Replies]
    rw [List.getElem?_append_left (List.getElem?_eq_some.1 h).1]
    exact h

theorem Comment.setMore_keeps (x : More) (c : Comment E) (i : Nat) (d : Comment E)
    (h : c.Replies.Comments[i]? = some d) : (c.setMore x).Replies.Comments[i]? = some d := by
  cases c with
  | mk f cs m => exact h
/-! ## Lemmas on the first match and on overwriting a marker -/

mutual
theorem Comment.firstMatch_sound (t : String) :
    ∀ (c : Comment E) (p : List Nat), c.firstMatch t = some p →
      ∃ A, c.nodeAt p = some A ∧ A.FullID = t
  | .mk f cs m, p, h => by
    unfold Comment.firstMatch at h
    by_cases hf : f.FullID = t
    · rw [if_pos hf] at h
      simp only [Option.some.injEq] at h
      subst h
      exact ⟨.mk f cs m, rfl, hf⟩
    · rw [if_neg hf] at h
      obtain ⟨i, q, d, A, hp, hd, hA, ht⟩ := forest_firstMatch_sound t cs 0 p h
      subst hp
      refine ⟨A, ?_, ht⟩
      rw [Comment.nodeAt_cons, Nat.zero_add, hd]
      exact hA
theorem forest_firstMatch_sound (t : String) :
    ∀ (cs : List (Comment E)) (k : Nat) (p : List Nat), firstMatch t k cs = some p →
      ∃ (i : Nat) (q : List Nat) (d A : Comment E),
        p = (k + i) :: q ∧ cs[i]? = some d ∧ d.nodeAt q = some A ∧ A.FullID = t
  | [], k, p, h => by simp [firstMatch] at h
  | c :: cs, k, p, h => by
    unfold firstMatch at h
    cases hc : c.firstMatch t with
    | some q =>
      simp only [hc, Option.some.injEq] at h
      obtain ⟨A, hA, ht⟩ := Comment.firstMatch_sound t c q hc
      exact ⟨0, q, c, A, h.symm, List.getElem?_cons_zero, hA, ht⟩
    | none =>
      simp only [hc] at h
      obtain ⟨i, q, d, A, hp, hd, hA, ht⟩ := forest_firstMatch_sound t cs (k + 1) p h
      refine ⟨i + 1, q, d, A, ?_, by rw [List.getElem?_cons_succ]; exact hd, hA, ht⟩
      rw [hp]
      congr 1
      omega
end

mutual
theorem Comment.firstMatch_complete (t : String) :
    ∀ c : Comment E, c.firstMatch t = none → t ∉ c.allFullIDs
  | .mk f cs m, h => by
    unfold Comment.firstMatch at h
    by_cases hf : f.FullID = t
    · rw [if_pos hf] at h
      simp at h
    · rw [if_neg hf] at h
      simp only [Comment.allFullIDs, List.mem_cons, not_or]
      exact ⟨fun e => hf e.symm, forest_firstMatch_complete t cs 0 h⟩
theorem forest_firstMatch_complete (t : String) :
    ∀ (cs : List (Comment E)) (k : Nat), firstMatch t k cs = none → t ∉ allFullIDs cs
  | [], _, _ => by simp [allFullIDs]
  | c :: cs, k, h => by
    unfold firstMatch at h
    cases hc : c.firstMatch t with
    | some q => simp [hc] at h
    | none =>
      simp only [hc] at h
      simp only [allFullIDs, List.mem_append, not_or]
      exact ⟨Comment.firstMatch_complete t c hc, forest_firstMatch_complete t cs (k + 1) h⟩
end

mutual
theorem Comment.addMoreToReplies_twice (m1 m2 : More) (h : m1.ParentID = m2.ParentID) :
    ∀ c : Comment E, (c.addMoreToReplies m1).addMoreToReplies m2 = c.addMoreToReplies m2
  | .mk f cs m => by
    by_cases hf : f.FullID = m1.ParentID
    · have hf2 : f.FullID = m2.ParentID := hf.trans h
      simp only [Comment.addMoreToReplies, if_pos hf, if_pos hf2]
    · have hf2 : ¬ f.FullID = m2.ParentID := fun e => hf (e.trans h.symm)
      simp only [Comment.addMoreToReplies, if_neg hf, if_neg hf2]
      rw [addMoreToEachReply_twice m1 m2 h cs]
theorem addMoreToEachReply_twice (m1 m2 : More) (h : m1.ParentID = m2.ParentID) :
    ∀ cs : List (Comment E),
      addMoreToEachReply (addMoreToEachReply cs m1) m2 = addMoreToEachReply cs m2
  | [] => by simp [addMoreToEachReply]
  | c :: cs => by
    simp only [addMoreToEachReply]
    rw [Comment.addMoreToReplies_twice m1 m2 h c, addMoreToEachReply_twice m1 m2 h cs]
end
/-! ## Claims on the tree assembler -/

/-- Claim C4.  In a composite whose post and comments have pairwise distinct
fullnames, let `A` be the comment at path `p` and `B` a comment whose
parent-fullname is the fullname of `A`.  Then `addCommentToTree` changes the
composite only by replacing `A` with `A` followed by the new last child `B`:
the node at `p` becomes `A.appendReply B`, the top level keeps its length, and
every other node keeps its fields, marker and number of children (and is
entirely unchanged unless it is an ancestor of `A`). -/
theorem addCommentToTree_unique_parent (pc : PostAndComments E) (B A : Comment E)
    (p : List Nat)
    (hn : (pc.Post.FullID :: allFullIDs pc.Comments).Nodup)
    (hA : nodeAt pc.Comments p = some A) (hB : B.ParentID = A.FullID) :
    pc.addCommentToTree B
        = { pc with Comments := modifyAt (fun c => c.appendReply B) pc.Comments p } ∧
    nodeAt (pc.addCommentToTree B).Comments p = some (A.appendReply B) ∧
    (pc.addCommentToTree B).Comments.length = pc.Comments.length ∧
    ∀ q X, q ≠ p → nodeAt pc.Comments q = some X →
      ∃ Y, nodeAt (pc.addCommentToTree B).Comments q = some Y ∧ Y.sameNode X ∧
        (¬ q <+: p → Y = X) := by
  have hmem := forest_nodeAt_mem_allFullIDs pc.Comments p A hA
  have hroot : ¬ pc.Post.FullID = B.ParentID := by
    intro e
    rw [hB] at e
    exact (List.nodup_cons.1 hn).1 (e ▸ hmem)
  have hall : ∀ q X, nodeAt pc.Comments q = some X → X.FullID = B.ParentID → p <+: q := by
    intro q X hX hXt
    rw [forest_nodeAt_unique pc.Comments p q A X (List.nodup_cons.1 hn).2 hA hX (hXt.trans hB)]
  have heq : pc.addCommentToTree B
      = { pc with Comments := modifyAt (fun c => c.appendReply B) pc.Comments p } := by
    unfold PostAndComments.addCommentToTree
    rw [if_neg hroot, addCommentToEachReply_eq_visitEach,
      visitEach_eq_modifyAt _ _ pc.Comments p A hA hB.symm hall]
  rw [heq]
  refine ⟨rfl, forest_nodeAt_modifyAt_self _ _ _ _ hA, length_modifyAt _ _ _, ?_⟩
  intro q X hq hX
  exact forest_nodeAt_modifyAt_of_ne _ (Comment.appendReply_keeps B) pc.Comments p q X hq hX

/-- Witness of C4: a reply to `t1_c`, which sits at depth two of `toyTree`. -/
theorem addCommentToTree_unique_parent_witness :
    (toyTree.Post.FullID :: allFullIDs toyTree.Comments).Nodup ∧
    nodeAt toyTree.Comments [0, 0] = some (toyComment "t1_c" "t1_a" [] none) ∧
    (toyComment "t1_b" "t1_c" [] none).ParentID = (toyComment "t1_c" "t1_a" [] none).FullID ∧
    toyTree.addCommentToTree (toyComment "t1_b" "t1_c" [] none)
      = { toyTree with
          Comments :=
            [toyComment "t1_a" "t3_x"
               [toyComment "t1_c" "t1_a" [toyComment "t1_b" "t1_c" [] none] none] none,
             toyComment "t1_d" "t3_x" [] none] } :=
  ⟨by decide, rfl, rfl,
    (addCommentToTree_unique_parent toyTree (toyComment "t1_b" "t1_c" [] none)
      (toyComment "t1_c" "t1_a" [] none) [0, 0] (by decide) rfl rfl).1⟩

/-- Counterexample to C5 as stated: with two sibling comments named `t1_a`, a
reply to `t1_a` is attached under both, not only under the first in pre-order. -/
theorem sibling_duplicates_attach_twice :
    (toySiblings.addCommentToTree (toyComment "t1_b" "t1_a" [] none)).Comments
      = [toyComment "t1_a" "t3_x" [toyComment "t1_b" "t1_a" [] none] none,
         toyComment "t1_a" "t3_x" [toyComment "t1_b" "t1_a" [] none] none] ∧
    (toySiblings.attachAtFirstMatch (toyComment "t1_b" "t1_a" [] none)).Comments
      = [toyComment "t1_a" "t3_x" [toyComment "t1_b" "t1_a" [] none] none,
         toyComment "t1_a" "t3_x" [] none] ∧
    toySiblings.addCommentToTree (toyComment "t1_b" "t1_a" [] none)
      ≠ toySiblings.attachAtFirstMatch (toyComment "t1_b" "t1_a" [] none) := by
  refine ⟨rfl, rfl, ?_⟩
  intro h
  have := congrArg (fun pc => pc.Comments.map (fun c => c.Replies.Comments.length)) h
  revert this
  decide

/-- Claim C6.  When the comment's parent-fullname is the root post's fullname,
`addCommentToTree` appends the comment at the end of the top-level sequence;
the post, the root marker and the comments already attached stay as they were. -/
theorem addCommentToTree_top_level (pc : PostAndComments E) (x : Comment E)
    (h : pc.Post.FullID = x.ParentID) :
    pc.addCommentToTree x = { pc with Comments := pc.Comments ++ [x] } ∧
    (pc.addCommentToTree x).Post = pc.Post ∧
    (pc.addCommentToTree x).More = pc.More ∧
    (pc.addCommentToTree x).Comments = pc.Comments ++ [x] := by
  unfold PostAndComments.addCommentToTree
  rw [if_pos h]
  exact ⟨rfl, rfl, rfl, rfl⟩

/-- Witness of C6: a reply to the post of `toyTree`. -/
theorem addCommentToTree_top_level_witness :
    toyTree.Post.FullID = (toyComment "t1_e" "t3_x" [] none).ParentID ∧
    toyTree.addCommentToTree (toyComment "t1_e" "t3_x" [] none)
      = { toyTree with Comments := toyTree.Comments ++ [toyComment "t1_e" "t3_x" [] none] } :=
  ⟨rfl, (addCommentToTree_top_level toyTree (toyComment "t1_e" "t3_x" [] none) rfl).1⟩

/-- Claim C7.  A comment, or a continuation marker, whose parent-fullname is
neither the root post's fullname nor the fullname of a comment of the tree at any
depth is dropped: `addCommentToTree`, respectively `addMoreToTree`, returns the
composite it was given. -/
theorem unattachable_is_dropped (pc : PostAndComments E) (x : Comment E) (m : More) :
    (x.ParentID ∉ pc.Post.FullID :: allFullIDs pc.Comments → pc.addCommentToTree x = pc) ∧
    (m.ParentID ∉ pc.Post.FullID :: allFullIDs pc.Comments → pc.addMoreToTree m = pc) := by
  constructor
  · intro h
    simp only [List.mem_cons, not_or] at h
    unfold PostAndComments.addCommentToTree
    rw [if_neg (fun e => h.1 e.symm), addCommentToEachReply_eq_visitEach,
      visitEach_of_not_mem _ _ _ h.2]
  · intro h
    simp only [List.mem_cons, not_or] at h
    have hroot : ¬ pc.Post.FullID = m.ParentID := fun e => h.1 e.symm
    unfold PostAndComments.addMoreToTree
    simp only [if_neg hroot]
    rw [addMoreToEachReply_eq_visitEach, visitEach_of_not_mem _ _ _ h.2]

/-- Witness of C7: a comment and a marker that name `t1_zz`, absent from `toyTree`. -/
theorem unattachable_is_dropped_witness :
    (toyComment "t1_e" "t1_zz" [] none).ParentID
        ∉ toyTree.Post.FullID :: allFullIDs toyTree.Comments ∧
    (toyMore "more_1" "t1_zz" ["t1_y"]).ParentID
        ∉ toyTree.Post.FullID :: allFullIDs toyTree.Comments ∧
    toyTree.addCommentToTree (toyComment "t1_e" "t1_zz" [] none) = toyTree ∧
    toyTree.addMoreToTree (toyMore "more_1" "t1_zz" ["t1_y"]) = toyTree :=
  ⟨by decide, by decide,
    (unattachable_is_dropped toyTree (toyComment "t1_e" "t1_zz" [] none)
      (toyMore "more_1" "t1_zz" ["t1_y"])).1 (by decide),
    (unattachable_is_dropped toyTree (toyComment "t1_e" "t1_zz" [] none)
      (toyMore "more_1" "t1_zz" ["t1_y"])).2 (by decide)⟩

/-- Claim C8.  In a composite whose post and comments have pairwise distinct
fullnames, let `A` be the comment at path `p` and `m` a marker whose
parent-fullname is the fullname of `A`.  After `addMoreToTree` the node at `p`
is `A` holding exactly the marker `m`, the root marker is what it was, and every
other node keeps its marker (with its fields and number of children, and is
entirely unchanged unless it is an ancestor of `A`). -/
theorem addMoreToTree_unique_parent (pc : PostAndComments E) (m : More) (A : Comment E)
    (p : List Nat)
    (hn : (pc.Post.FullID :: allFullIDs pc.Comments).Nodup)
    (hA : nodeAt pc.Comments p = some A) (hm : m.ParentID = A.FullID) :
    pc.addMoreToTree m = { pc with Comments := modifyAt (Comment.setMore m) pc.Comments p } ∧
    nodeAt (pc.addMoreToTree m).Comments p = some (A.setMore m) ∧
    (A.setMore m).Replies.More = some m ∧
    (pc.addMoreToTree m).More = pc.More ∧
    ∀ q X, q ≠ p → nodeAt pc.Comments q = some X →
      ∃ Y, nodeAt (pc.addMoreToTree m).Comments q = some Y ∧ Y.sameNode X ∧
        (¬ q <+: p → Y = X) := by
  have hmem := forest_nodeAt_mem_allFullIDs pc.Comments p A hA
  have hroot : ¬ pc.Post.FullID = m.ParentID := by
    intro e
    rw [hm] at e
    exact (List.nodup_cons.1 hn).1 (e ▸ hmem)
  have hall : ∀ q X, nodeAt pc.Comments q = some X → X.FullID = m.ParentID → p <+: q := by
    intro q X hX hXt
    rw [forest_nodeAt_unique pc.Comments p q A X (List.nodup_cons.1 hn).2 hA hX (hXt.trans hm)]
  have heq : pc.addMoreToTree m
      = { pc with Comments := modifyAt (Comment.setMore m) pc.Comments p } := by
    unfold PostAndComments.addMoreToTree
    simp only [if_neg hroot]
    rw [addMoreToEachReply_eq_visitEach,
      visitEach_eq_modifyAt _ _ pc.Comments p A hA hm.symm hall]
  rw [heq]
  refine ⟨rfl, forest_nodeAt_modifyAt_self _ _ _ _ hA, ?_, rfl, ?_⟩
  · cases A
    rfl
  · intro q X hq hX
    exact forest_nodeAt_modifyAt_of_ne _ (Comment.setMore_keeps m) pc.Comments p q X hq hX

/-- Witness of C8: a marker for the comment `t1_c` of `toyTree`. -/
theorem addMoreToTree_unique_parent_witness :
    (toyTree.Post.FullID :: allFullIDs toyTree.Comments).Nodup ∧
    nodeAt toyTree.Comments [0, 0] = some (toyComment "t1_c" "t1_a" [] none) ∧
    (toyMore "more_1" "t1_c" ["t1_y"]).ParentID = (toyComment "t1_c" "t1_a" [] none).FullID ∧
    toyTree.addMoreToTree (toyMore "more_1" "t1_c" ["t1_y"])
      = { toyTree with
          Comments :=
            [toyComment "t1_a" "t3_x"
               [toyComment "t1_c" "t1_a" [] (some (toyMore "more_1" "t1_c" ["t1_y"]))] none,
             toyComment "t1_d" "t3_x" [] none] } :=
  ⟨by decide, rfl, rfl,
    (addMoreToTree_unique_parent toyTree (toyMore "more_1" "t1_c" ["t1_y"])
      (toyComment "t1_c" "t1_a" [] none) [0, 0] (by decide) rfl rfl).1⟩

/-- Claim C10, evaluated where it fails.  In `toyClash` a top-level comment carries
the fullname of the post.  A marker for that fullname becomes the root marker,
and, the loop running after the root matched, also the marker of that comment:
the comment's reply container is not left unchanged. -/
theorem addMoreToTree_root_match_continues :
    toyClash.Post.FullID = (toyMore "more_1" "t3_x" ["t1_z"]).ParentID ∧
    toyClash.addMoreToTree (toyMore "more_1" "t3_x" ["t1_z"])
      = { Post := toyClash.Post
          Comments := [toyComment "t3_x" "t3_x" [] (some (toyMore "more_1" "t3_x" ["t1_z"]))]
          More := some (toyMore "more_1" "t3_x" ["t1_z"]) } ∧
    (toyClash.addMoreToTree (toyMore "more_1" "t3_x" ["t1_z"])).Comments ≠ toyClash.Comments ∧
    (toyClash.addCommentToTree (toyComment "t1_b" "t3_x" [] none)).Comments
      = toyClash.Comments ++ [toyComment "t1_b" "t3_x" [] none] := by
  refine ⟨rfl, rfl, ?_, rfl⟩
  intro h
  have := congrArg (fun cs => cs.map (fun c => c.Replies.More)) h
  revert this
  decide

/-! ## Claims on listings, reply containers and the composite assembler -/

/-- Claim C12.  When the input decodes as the two listings `l0` and `l1` and the
post bucket of `l0` is `post :: rest`, `PostAndComments.UnmarshalJSON` returns
normally with a nil error and the receiver holds `post` as its post, the comment
bucket of `l1` in order as its comments, and as its marker the first marker of
`l1` when there is one and none otherwise. -/
theorem PostAndComments_UnmarshalJSON_assembles (L : JSONListing E) (pc : PostAndComments E)
    (data : Bytes) (l0 l1 : rootListing E) (post : Post E) (rest : List (Post E))
    (h : L.unmarshalRootListings data = .ok (l0, l1))
    (hp : l0.Data.Things.Posts = post :: rest) :
    PostAndComments.UnmarshalJSON L pc data
        = .returned ({ Post := post, Comments := l1.Data.Things.Comments,
                       More := l1.Data.Things.Mores.head? }, none) ∧
    (∀ m ms, l1.Data.Things.Mores = m :: ms → l1.Data.Things.Mores.head? = some m) ∧
    (l1.Data.Things.Mores = [] → l1.Data.Things.Mores.head? = none) := by
  refine ⟨?_, fun m ms e => by rw [e]; rfl, fun e => by rw [e]; rfl⟩
  unfold PostAndComments.UnmarshalJSON
  simp only [h, rootListing.getPosts, hp, List.getElem?_cons_zero, rootListing.getComments,
    rootListing.getFirstMore]
  cases hm : l1.Data.Things.Mores with
  | nil => simp
  | cons m ms => simp

/-- Witness of C12, at the toy two-listing input `[91]`. -/
theorem PostAndComments_UnmarshalJSON_assembles_witness :
    toyJSONListing.unmarshalRootListings [91] = .ok (toyPostListing, toyMoreListing) ∧
    toyPostListing.Data.Things.Posts = toyPost "t3_x" :: [] ∧
    PostAndComments.UnmarshalJSON toyJSONListing toyTree [91]
      = .returned ({ Post := toyPost "t3_x", Comments := [],
                     More := some (toyMore "more_1" "t3_x" ["t1_a", "t1_b"]) }, none) :=
  ⟨rfl, rfl,
    (PostAndComments_UnmarshalJSON_assembles toyJSONListing toyTree [91] toyPostListing
      toyMoreListing (toyPost "t3_x") [] rfl rfl).1⟩

/-- Claim C13.  `HasMore`, on a composite and on a comment, is true exactly when
the continuation marker is present and has at least one child identifier; and a
composite decoded from a first listing with one post and a second listing with
no comment and one marker whose children are `t1_a`, `t1_b` has `HasMore` true. -/
theorem HasMore_iff (pc : PostAndComments E) (c : Comment E) :
    (pc.HasMore = true ↔ ∃ m, pc.More = some m ∧ 0 < m.Children.length) ∧
    (c.HasMore = true ↔ ∃ m, c.Replies.More = some m ∧ 0 < m.Children.length) ∧
    (∀ (L : JSONListing E) (data : Bytes) (l0 l1 : rootListing E) (post : Post E) (m : More),
      L.unmarshalRootListings data = .ok (l0, l1) →
      l0.Data.Things.Posts = [post] → l1.Data.Things.Comments = [] →
      l1.Data.Things.Mores = [m] → m.Children = ["t1_a", "t1_b"] →
      ∃ pc', PostAndComments.UnmarshalJSON L pc data = .returned (pc', none) ∧
        pc'.HasMore = true) := by
  refine ⟨?_, ?_, ?_⟩
  · unfold PostAndComments.HasMore
    cases pc.More with
    | none => simp
    | some m => simp
  · unfold Comment.HasMore
    cases c.Replies.More with
    | none => simp
    | some m => simp
  · intro L data l0 l1 post m h hp _ hm hc
    refine ⟨{ Post := post, Comments := l1.Data.Things.Comments, More := some m }, ?_, ?_⟩
    · unfold PostAndComments.UnmarshalJSON
      simp [h, rootListing.getPosts, hp, rootListing.getComments, rootListing.getFirstMore, hm]
    · simp [PostAndComments.HasMore, hc]

/-- Witness of C13: the scenario at the toy two-listing input `[91]`. -/
theorem HasMore_iff_witness :
    toyJSONListing.unmarshalRootListings [91] = .ok (toyPostListing, toyMoreListing) ∧
    toyPostListing.Data.Things.Posts = [toyPost "t3_x"] ∧
    toyMoreListing.Data.Things.Comments = [] ∧
    toyMoreListing.Data.Things.Mores = [toyMore "more_1" "t3_x" ["t1_a", "t1_b"]] ∧
    (toyMore "more_1" "t3_x" ["t1_a", "t1_b"]).Children = ["t1_a", "t1_b"] ∧
    ∃ pc', PostAndComments.UnmarshalJSON toyJSONListing toyTree [91] = .returned (pc', none) ∧
      pc'.HasMore = true :=
  ⟨rfl, rfl, rfl, rfl, rfl,
    (HasMore_iff toyTree (toyComment "t1_a" "t3_x" [] none)).2.2 toyJSONListing [91]
      toyPostListing toyMoreListing (toyPost "t3_x") (toyMore "more_1" "t3_x" ["t1_a", "t1_b"])
      rfl rfl rfl rfl rfl⟩

/-- Claim C14.  Each of the five projections of a listing is the listing's bucket
of that kind together with the listing's `After` and `Before`; the projections
are functions of the listing and assign to none of its fields, so any two of
them carry the same cursors. -/
theorem rootListing_projections (l : rootListing E) :
    l.getComments = { Comments := l.Data.Things.Comments, After := l.Data.After,
                      Before := l.Data.Before } ∧
    l.getPosts = { Posts := l.Data.Things.Posts, After := l.Data.After,
                   Before := l.Data.Before } ∧
    l.getUsers = { Users := l.Data.Things.Users, After := l.Data.After,
                   Before := l.Data.Before } ∧
    l.getSubreddits = { Subreddits := l.Data.Things.Subreddits, After := l.Data.After,
                        Before := l.Data.Before } ∧
    l.getModActions = { ModActions := l.Data.Things.ModActions, After := l.Data.After,
                        Before := l.Data.Before } ∧
    (l.getPosts.After = l.getComments.After ∧ l.getPosts.Before = l.getComments.Before) ∧
    (l.getUsers.After = l.getComments.After ∧ l.getUsers.Before = l.getComments.Before) ∧
    (l.getSubreddits.After = l.getComments.After ∧
      l.getSubreddits.Before = l.getComments.Before) ∧
    (l.getModActions.After = l.getComments.After ∧
      l.getModActions.Before = l.getComments.Before) :=
  ⟨rfl, rfl, rfl, rfl, rfl, ⟨rfl, rfl⟩, ⟨rfl, rfl⟩, ⟨rfl, rfl⟩, ⟨rfl, rfl⟩⟩

/-- Claim C15.  On a newly created reply container (no comments, nil marker) and
the two-byte input `""`, `Replies.UnmarshalJSON` returns the nil error and the
container is still empty, whatever the JSON library would do with that input:
the structural decode is not attempted. -/
theorem Replies_UnmarshalJSON_sentinel (L : JSONListing E) :
    Replies.UnmarshalJSON L { Comments := [], More := none } emptyStringLiteral
      = ({ Comments := [], More := none }, none) ∧
    (∀ err, L.unmarshalRootListing emptyStringLiteral = .error err →
      (Replies.UnmarshalJSON L { Comments := [], More := none } emptyStringLiteral).2
        = none) := by
  unfold Replies.UnmarshalJSON
  rw [if_pos rfl]
  exact ⟨rfl, fun _ _ => rfl⟩

/-- Witness of C15: the toy library fails to decode `""` as a listing, and the
method still returns the nil error. -/
theorem Replies_UnmarshalJSON_sentinel_witness :
    toyJSONListing.unmarshalRootListing emptyStringLiteral
      = .error "cannot unmarshal into Go value of type reddit.rootListing" ∧
    (Replies.UnmarshalJSON toyJSONListing { Comments := [], More := none }
      emptyStringLiteral).2 = none :=
  ⟨rfl, (Replies_UnmarshalJSON_sentinel toyJSONListing).2 _ rfl⟩

/-- Claim C16.  For a nil reply container and for one with zero comments, with or
without a marker, `Replies.MarshalJSON` returns the bytes `null` and the nil
error; `null` is not the sentinel `""`; and re-encoding the container obtained
by decoding the sentinel gives `null`. -/
theorem Replies_MarshalJSON_empty (L : JSONListing E) (r : Option (Replies E))
    (h : ∀ x, r = some x → x.Comments = []) :
    Replies.MarshalJSON L r = (nullLiteral, none) ∧
    nullLiteral ≠ emptyStringLiteral ∧
    Replies.MarshalJSON L
        (some (Replies.UnmarshalJSON L { Comments := [], More := none } emptyStringLiteral).1)
      = (nullLiteral, none) := by
  refine ⟨?_, by decide, ?_⟩
  · cases r with
    | none => rfl
    | some x =>
      have hx := h x rfl
      simp [Replies.MarshalJSON, hx]
  · unfold Replies.UnmarshalJSON
    rw [if_pos rfl]
    rfl

/-- Witness of C16: a container with no comment that holds a marker. -/
theorem Replies_MarshalJSON_empty_witness :
    (∀ x, some ({ Comments := [], More := some (toyMore "more_1" "t1_a" ["t1_y"]) } :
        Replies toyExternal) = some x → x.Comments = []) ∧
    Replies.MarshalJSON toyJSONListing
        (some { Comments := [], More := some (toyMore "more_1" "t1_a" ["t1_y"]) })
      = (nullLiteral, none) :=
  have hyp : ∀ x, some ({ Comments := [], More := some (toyMore "more_1" "t1_a" ["t1_y"]) } :
      Replies toyExternal) = some x → x.Comments = [] := by
    intro x hx
    cases hx
    rfl
  ⟨hyp, (Replies_MarshalJSON_empty toyJSONListing _ hyp).1⟩

/-- Claim C17.  When the input does not parse as an array of envelopes,
`things.UnmarshalJSON` returns the parse error and leaves all six buckets empty,
whatever the receiver held; and for every input the result is the same for any
two receivers. -/
theorem things_UnmarshalJSON_parse_error (J : JSON E) (t u : things E) (b : Bytes)
    (err : GoError) (h : J.unmarshalThings b = .error err) :
    things.UnmarshalJSON J t b
        = ({ Comments := [], Mores := [], Users := [], Posts := [], Subreddits := [],
             ModActions := [] }, some err) ∧
    (∀ b', things.UnmarshalJSON J t b' = things.UnmarshalJSON J u b') := by
  constructor
  · simp [things.UnmarshalJSON, h, things.init]
  · intro b'
    rfl

/-- Witness of C17: the toy library rejects the empty input; the receiver held
a post before the call. -/
theorem things_UnmarshalJSON_parse_error_witness :
    toyJSON.unmarshalThings [] = .error "unexpected end of JSON input" ∧
    things.UnmarshalJSON toyJSON { toyThings with Posts := [toyPost "t3_x"] } []
      = ({ Comments := [], Mores := [], Users := [], Posts := [], Subreddits := [],
           ModActions := [] }, some "unexpected end of JSON input") :=
  ⟨rfl, (things_UnmarshalJSON_parse_error toyJSON { toyThings with Posts := [toyPost "t3_x"] }
    toyThings [] "unexpected end of JSON input" rfl).1⟩

/-- Claim C19.  When the input is not the sentinel and decodes as the listing
`root`, `Replies.UnmarshalJSON` returns the nil error, the container's comments
are the comment bucket of `root` in order, and its marker is the first element
of the marker bucket, or none when that bucket is empty: later markers are
discarded.  When the buckets of `root` were decoded from the children `xs`, the
comments are the well-formed comment envelopes of `xs` in order and the marker
is the first well-formed marker envelope of `xs`. -/
theorem Replies_UnmarshalJSON_listing (L : JSONListing E) (r : Replies E) (data : Bytes)
    (root : rootListing E) (hd : data ≠ emptyStringLiteral)
    (h : L.unmarshalRootListing data = .ok root) :
    Replies.UnmarshalJSON L r data
        = ({ Comments := root.Data.Things.Comments,
             More := root.Data.Things.Mores.head? }, none) ∧
    (∀ m ms, root.Data.Things.Mores = m :: ms →
      (Replies.UnmarshalJSON L r data).1.More = some m) ∧
    (root.Data.Things.Mores = [] → (Replies.UnmarshalJSON L r data).1.More = none) ∧
    (∀ (J : JSON E) (t : things E) (b : Bytes) (xs : List thing),
      J.unmarshalThings b = .ok xs → root.Data.Things = (things.UnmarshalJSON J t b).1 →
      (Replies.UnmarshalJSON L r data).1.Comments = xs.filterMap J.commentOf ∧
      (Replies.UnmarshalJSON L r data).1.More = (xs.filterMap J.moreOf).head?) := by
  have heq : Replies.UnmarshalJSON L r data
      = ({ Comments := root.Data.Things.Comments,
           More := root.Data.Things.Mores.head? }, none) := by
    unfold Replies.UnmarshalJSON
    rw [if_neg hd]
    simp only [h, rootListing.getFirstMore]
    cases root.Data.Things.Mores <;> simp
  rw [heq]
  refine ⟨rfl, fun m ms e => by simp [e], fun e => by simp [e], ?_⟩
  intro J t b xs hb ht
  rw [ht, UnmarshalJSON_of_ok J t b xs hb]
  constructor
  · show (xs.foldl (things.appendThing J) t.init).Comments = _
    rw [foldl_appendThing_Comments]
    rfl
  · show (xs.foldl (things.appendThing J) t.init).Mores.head? = _
    rw [foldl_appendThing_Mores]
    rfl

/-- Witness of C19: a toy listing whose children are a comment and two markers. -/
theorem Replies_UnmarshalJSON_listing_witness :
    ([123, 0, 1, 9] : Bytes) ≠ emptyStringLiteral ∧
    toyJSONListing.unmarshalRootListing [123, 0, 1, 9]
      = .ok (toyListing { toyThings with
          Comments := [.mk { ID := "0" } [] none], Mores := [{ ID := "1" }, { ID := "9" }] }) ∧
    Replies.UnmarshalJSON toyJSONListing { Comments := [], More := none } [123, 0, 1, 9]
      = ({ Comments := [.mk { ID := "0" } [] none], More := some { ID := "1" } }, none) :=
  ⟨by decide, rfl,
    (Replies_UnmarshalJSON_listing toyJSONListing { Comments := [], More := none }
      [123, 0, 1, 9] _ (by decide) rfl).1⟩

/-! ## Lemmas on what the walk preserves -/

theorem Comment.fields_visit (t : String) (g : Comment E → Comment E)
    (hgf : ∀ c : Comment E, (g c).fields = c.fields) (c : Comment E) :
    (c.visit t g).fields = c.fields := by
  cases c with
  | mk f cs m =>
    rw [Comment.visit_cons]
    by_cases h : f.FullID = t
    · rw [if_pos h]; exact hgf _
    · rw [if_neg h]; rfl

theorem map_fields_visit (t : String) (g : Comment E → Comment E)
    (hgf : ∀ c : Comment E, (g c).fields = c.fields) (cs : List (Comment E)) :
    (cs.map (Comment.visit t g)).map Comment.fields = cs.map Comment.fields := by
  rw [List.map_map]
  apply List.map_congr_left
  intro c _
  exact Comment.fields_visit t g hgf c

/-- Along the walk every node stays at its path with its fields, and its child
sequence, read as a sequence of payload fields, only grows at the end. -/
theorem Comment.nodeAt_visit (t : String) (g : Comment E → Comment E)
    (hgf : ∀ c : Comment E, (g c).fields = c.fields)
    (hgx : ∀ c : Comment E, ∃ extra, (g c).Replies.Comments = c.Replies.Comments ++ extra) :
    ∀ (q : List Nat) (c X : Comment E), c.nodeAt q = some X →
      ∃ Y, (c.visit t g).nodeAt q = some Y ∧ Y.fields = X.fields ∧
        X.Replies.Comments.map Comment.fields <+: Y.Replies.Comments.map Comment.fields
  | [], .mk f cs m, X, hX => by
    simp only [Comment.nodeAt, Option.some.injEq] at hX
    subst hX
    refine ⟨_, rfl, Comment.fields_visit t g hgf _, ?_⟩
    rw [Comment.visit_cons]
    by_cases h : f.FullID = t
    · rw [if_pos h]
      obtain ⟨extra, he⟩ := hgx (.mk f cs m)
      rw [he, List.map_append]
      exact List.prefix_append _ _
    · rw [if_neg h]
      show cs.map Comment.fields <+: (cs.map (Comment.visit t g)).map Comment.fields
      rw [map_fields_visit t g hgf]
  | i :: q, .mk f cs m, X, hX => by
    rw [Comment.nodeAt_cons] at hX
    cases hd : cs[i]? with
    | none => simp [hd] at hX
    | some d =>
      simp only [hd] at hX
      rw [Comment.visit_cons]
      by_cases h : f.FullID = t
      · rw [if_pos h]
        obtain ⟨extra, he⟩ := hgx (.mk f cs m)
        refine ⟨X, ?_, rfl, List.prefix_refl _⟩
        have hlt : i < cs.length := (List.getElem?_eq_some.1 hd).1
        have hchild : (g (.mk f cs m)).Replies.Comments[i]? = some d := by
          rw [he]
          show (cs ++ extra)[i]? = some d
          rw [List.getElem?_append_left hlt]
          exact hd
        simp only [Comment.nodeAt, hchild]
        exact hX
      · rw [if_neg h, Comment.nodeAt_cons, List.getElem?_map, hd]
        exact Comment.nodeAt_visit t g hgf hgx q d X hX

/-- Forest version of `Comment.nodeAt_visit`. -/
theorem forest_nodeAt_visit (t : String) (g : Comment E → Comment E)
    (hgf : ∀ c : Comment E, (g c).fields = c.fields)
    (hgx : ∀ c : Comment E, ∃ extra, (g c).Replies.Comments = c.Replies.Comments ++ extra)
    (cs : List (Comment E)) (q : List Nat) (X : Comment E) (hX : nodeAt cs q = some X) :
    ∃ Y, nodeAt (visitEach t g cs) q = some Y ∧ Y.fields = X.fields ∧
      X.Replies.Comments.map Comment.fields <+: Y.Replies.Comments.map Comment.fields := by
  cases q with
  | nil => simp [nodeAt] at hX
  | cons i q =>
    simp only [nodeAt] at hX
    cases hd : cs[i]? with
    | none => simp [hd] at hX
    | some d =>
      simp only [hd] at hX
      rw [visitEach_eq_map]
      simp only [nodeAt, List.getElem?_map, hd, Option.map_some']
      exact Comment.nodeAt_visit t g hgf hgx q d X hX

theorem Comment.appendReply_fields (x c : Comment E) : (c.appendReply x).fields = c.fields := by
  cases c
  rfl

theorem Comment.setMore_fields (m : More) (c : Comment E) : (c.setMore m).fields = c.fields := by
  cases c
  rfl

theorem Comment.appendReply_extends (x c : Comment E) :
    ∃ extra, (c.appendReply x).Replies.Comments = c.Replies.Comments ++ extra := by
  cases c
  exact ⟨[x], rfl⟩

theorem Comment.setMore_extends (m : More) (c : Comment E) :
    ∃ extra, (c.setMore m).Replies.Comments = c.Replies.Comments ++ extra := by
  cases c
  exact ⟨[], (List.append_nil _).symm⟩

theorem Comment.allFullIDs_appendReply (x c : Comment E) :
    (c.appendReply x).allFullIDs = c.allFullIDs ++ x.allFullIDs := by
  cases c with
  | mk f cs m =>
    have h1 : reddit.allFullIDs [x] = x.allFullIDs := by
      rw [allFullIDs_cons]
      simp [reddit.allFullIDs]
    simp [Comment.appendReply, Comment.allFullIDs, allFullIDs_append, h1]

theorem Comment.allFullIDs_setMore (x : More) (c : Comment E) :
    (c.setMore x).allFullIDs = c.allFullIDs := by
  cases c
  rfl

mutual
theorem Comment.length_allFullIDs_visit (t : String) (g : Comment E → Comment E)
    (hg : ∀ c : Comment E, c.allFullIDs.length ≤ (g c).allFullIDs.length) :
    ∀ c : Comment E, c.allFullIDs.length ≤ (c.visit t g).allFullIDs.length
  | .mk f cs m => by
    unfold Comment.visit
    by_cases h : f.FullID = t
    · rw [if_pos h]; exact hg _
    · rw [if_neg h]
      simp only [Comment.allFullIDs, List.length_cons]
      exact Nat.succ_le_succ (length_allFullIDs_visitEach t g hg cs)
theorem length_allFullIDs_visitEach (t : String) (g : Comment E → Comment E)
    (hg : ∀ c : Comment E, c.allFullIDs.length ≤ (g c).allFullIDs.length) :
    ∀ cs : List (Comment E), (allFullIDs cs).length ≤ (allFullIDs (visitEach t g cs)).length
  | [] => by simp [visitEach]
  | c :: cs => by
    simp only [visitEach, allFullIDs, List.length_append]
    exact Nat.add_le_add (Comment.length_allFullIDs_visit t g hg c)
      (length_allFullIDs_visitEach t g hg cs)
end

theorem forest_nodeAt_append (cs extra : List (Comment E)) (q : List Nat) (X : Comment E)
    (hX : nodeAt cs q = some X) : nodeAt (cs ++ extra) q = some X := by
  cases q with
  | nil => simp [nodeAt] at hX
  | cons i q =>
    simp only [nodeAt] at hX ⊢
    cases hd : cs[i]? with
    | none => simp [hd] at hX
    | some d =>
      rw [List.getElem?_append_left (List.getElem?_eq_some.1 hd).1, hd]
      simp only [hd] at hX
      exact hX

/-! ## Claim on the append-only invariant -/

/-- Claim C11.  For every composite and every inserted comment `x` or marker
`m`: the root post is unchanged; the top-level sequence and, at every node, the
child sequence before the insertion is a prefix of the one after it (children
being identified by their payload fields); every comment is still at its path
with its payload fields unchanged; and the number of comments of the tree does
not decrease. -/
theorem assembler_append_only (pc : PostAndComments E) (x : Comment E) (m : More) :
    ((pc.addCommentToTree x).Post = pc.Post ∧
      pc.Comments.map Comment.fields <+: (pc.addCommentToTree x).Comments.map Comment.fields ∧
      (∀ q X, nodeAt pc.Comments q = some X →
        ∃ Y, nodeAt (pc.addCommentToTree x).Comments q = some Y ∧ Y.fields = X.fields ∧
          X.Replies.Comments.map Comment.fields <+: Y.Replies.Comments.map Comment.fields) ∧
      (allFullIDs pc.Comments).length ≤ (allFullIDs (pc.addCommentToTree x).Comments).length) ∧
    ((pc.addMoreToTree m).Post = pc.Post ∧
      pc.Comments.map Comment.fields <+: (pc.addMoreToTree m).Comments.map Comment.fields ∧
      (∀ q X, nodeAt pc.Comments q = some X →
        ∃ Y, nodeAt (pc.addMoreToTree m).Comments q = some Y ∧ Y.fields = X.fields ∧
          X.Replies.Comments.map Comment.fields <+: Y.Replies.Comments.map Comment.fields) ∧
      (allFullIDs pc.Comments).length ≤ (allFullIDs (pc.addMoreToTree m).Comments).length) := by
  constructor
  · unfold PostAndComments.addCommentToTree
    by_cases hroot : pc.Post.FullID = x.ParentID
    · rw [if_pos hroot]
      refine ⟨rfl, ?_, ?_, ?_⟩
      · rw [List.map_append]
        exact List.prefix_append _ _
      · intro q X hX
        exact ⟨X, forest_nodeAt_append _ _ q X hX, rfl, List.prefix_refl _⟩
      · rw [allFullIDs_append, List.length_append]
        exact Nat.le_add_right _ _
    · rw [if_neg hroot, addCommentToEachReply_eq_visitEach]
      refine ⟨rfl, ?_, ?_, ?_⟩
      · rw [visitEach_eq_map, map_fields_visit _ _ (Comment.appendReply_fields x)]
      · intro q X hX
        exact forest_nodeAt_visit _ _ (Comment.appendReply_fields x)
          (Comment.appendReply_extends x) pc.Comments q X hX
      · apply length_allFullIDs_visitEach
        intro c
        rw [Comment.allFullIDs_appendReply, List.length_append]
        exact Nat.le_add_right _ _
  · have hc : (pc.addMoreToTree m).Comments
        = visitEach m.ParentID (Comment.setMore m) pc.Comments := by
      unfold PostAndComments.addMoreToTree
      rw [← addMoreToEachReply_eq_visitEach]
      by_cases hroot : pc.Post.FullID = m.ParentID
      · simp only [if_pos hroot]
      · simp only [if_neg hroot]
    have hp : (pc.addMoreToTree m).Post = pc.Post := by
      unfold PostAndComments.addMoreToTree
      by_cases hroot : pc.Post.FullID = m.ParentID
      · simp only [if_pos hroot]
      · simp only [if_neg hroot]
    rw [hc]
    refine ⟨hp, ?_, ?_, ?_⟩
    · rw [visitEach_eq_map, map_fields_visit _ _ (Comment.setMore_fields m)]
    · intro q X hX
      exact forest_nodeAt_visit _ _ (Comment.setMore_fields m)
        (Comment.setMore_extends m) pc.Comments q X hX
    · apply length_allFullIDs_visitEach
      intro c
      rw [Comment.allFullIDs_setMore]

/-- Witness of C11: the comment `t1_c` of `toyTree`, at path `[0, 0]`, after a
reply to it was inserted. -/
theorem assembler_append_only_witness :
    nodeAt toyTree.Comments [0, 0] = some (toyComment "t1_c" "t1_a" [] none) ∧
    ∃ Y, nodeAt (toyTree.addCommentToTree (toyComment "t1_b" "t1_c" [] none)).Comments [0, 0]
        = some Y ∧
      Y.fields = (toyComment "t1_c" "t1_a" [] none).fields ∧
      (toyComment "t1_c" "t1_a" [] none).Replies.Comments.map Comment.fields
        <+: Y.Replies.Comments.map Comment.fields :=
  ⟨rfl, (assembler_append_only toyTree (toyComment "t1_b" "t1_c" [] none)
    (toyMore "more_1" "t1_c" ["t1_y"])).1.2.2.1 [0, 0] _ rfl⟩

/-! ## Lemmas on repeating the walk -/

theorem Comment.visit_of_FullID_eq (t : String) (g : Comment E → Comment E) (c : Comment E)
    (h : c.FullID = t) : c.visit t g = g c := by
  cases c with
  | mk f cs m =>
    rw [Comment.visit_cons, if_pos (by simpa [Comment.FullID, Comment.fields] using h)]

mutual
theorem Comment.visit_visit (t : String) (g : Comment E → Comment E)
    (hgf : ∀ c : Comment E, (g c).fields = c.fields) :
    ∀ c : Comment E, (c.visit t g).visit t g = c.visit t (fun d => g (g d))
  | .mk f cs m => by
    by_cases h : f.FullID = t
    · have h1 : (Comment.mk f cs m).visit t g = g (.mk f cs m) :=
        Comment.visit_of_FullID_eq t g _ h
      have h2 : (g (Comment.mk f cs m)).FullID = t := by
        unfold Comment.FullID
        rw [hgf]
        exact h
      rw [h1, Comment.visit_of_FullID_eq t g _ h2,
        Comment.visit_of_FullID_eq t (fun d => g (g d)) (.mk f cs m) h]
    · simp only [Comment.visit, if_neg h]
      rw [visitEach_visitEach t g hgf cs]
theorem visitEach_visitEach (t : String) (g : Comment E → Comment E)
    (hgf : ∀ c : Comment E, (g c).fields = c.fields) :
    ∀ cs : List (Comment E),
      visitEach t g (visitEach t g cs) = visitEach t (fun d => g (g d)) cs
  | [] => by simp [visitEach]
  | c :: cs => by
    simp only [visitEach]
    rw [Comment.visit_visit t g hgf c, visitEach_visitEach t g hgf cs]
end

mutual
theorem Comment.length_allFullIDs_visit_lt (t : String) (g : Comment E → Comment E)
    (hg : ∀ c : Comment E, c.allFullIDs.length < (g c).allFullIDs.length) :
    ∀ c : Comment E, t ∈ c.allFullIDs →
      c.allFullIDs.length < (c.visit t g).allFullIDs.length
  | .mk f cs m => by
    intro hmem
    unfold Comment.visit
    by_cases h : f.FullID = t
    · rw [if_pos h]; exact hg _
    · rw [if_neg h]
      simp only [Comment.allFullIDs, List.mem_cons] at hmem
      rcases hmem with hmem | hmem
      · exact absurd hmem.symm h
      · simp only [Comment.allFullIDs, List.length_cons]
        exact Nat.succ_lt_succ (length_allFullIDs_visitEach_lt t g hg cs hmem)
theorem length_allFullIDs_visitEach_lt (t : String) (g : Comment E → Comment E)
    (hg : ∀ c : Comment E, c.allFullIDs.length < (g c).allFullIDs.length) :
    ∀ cs : List (Comment E), t ∈ allFullIDs cs →
      (allFullIDs cs).length < (allFullIDs (visitEach t g cs)).length
  | [] => by simp [allFullIDs]
  | c :: cs => by
    intro hmem
    simp only [allFullIDs, List.mem_append] at hmem
    simp only [visitEach, allFullIDs, List.length_append]
    rcases hmem with hmem | hmem
    · exact Nat.add_lt_add_of_lt_of_le (Comment.length_allFullIDs_visit_lt t g hg c hmem)
        (length_allFullIDs_visitEach t g (fun d => Nat.le_of_lt (hg d)) cs)
    · exact Nat.add_lt_add_of_le_of_lt
        (Comment.length_allFullIDs_visit t g (fun d => Nat.le_of_lt (hg d)) c)
        (length_allFullIDs_visitEach_lt t g hg cs hmem)
end

theorem mem_allFullIDs_visitEach (t : String) (g : Comment E → Comment E)
    (hgf : ∀ c : Comment E, (g c).fields = c.fields)
    (hgx : ∀ c : Comment E, ∃ extra, (g c).Replies.Comments = c.Replies.Comments ++ extra)
    (cs : List (Comment E)) (s : String) (hs : s ∈ allFullIDs cs) :
    s ∈ allFullIDs (visitEach t g cs) := by
  obtain ⟨i, d, p, A, hd, hA, hAs⟩ := exists_nodeAt_of_mem_forest s cs hs
  have hnode : nodeAt cs (i :: p) = some A := by
    simp only [nodeAt, hd]
    exact hA
  obtain ⟨Y, hY, hYf, _⟩ := forest_nodeAt_visit t g hgf hgx cs (i :: p) A hnode
  have := forest_nodeAt_mem_allFullIDs _ _ _ hY
  have hfull : Y.FullID = s := by
    unfold Comment.FullID at hAs ⊢
    rw [hYf]
    exact hAs
  rw [hfull] at this
  exact this

theorem Comment.length_allFullIDs_pos (c : Comment E) : 0 < c.allFullIDs.length := by
  cases c
  simp [Comment.allFullIDs]

/-! ## Claim on inserting the same comment twice -/

/-- Counterexample to C18 as stated: `toyTree` has pairwise distinct fullnames,
and inserting a reply to `t1_c` a second time appends a second copy of it, so
the tree is not the tree after the first insertion. -/
theorem second_insertion_appends_again :
    (toyTree.Post.FullID :: allFullIDs toyTree.Comments).Nodup ∧
    (toyTree.addCommentToTree (toyComment "t1_b" "t1_c" [] none)).addCommentToTree
        (toyComment "t1_b" "t1_c" [] none)
      = { toyTree with
          Comments :=
            [toyComment "t1_a" "t3_x"
               [toyComment "t1_c" "t1_a"
                  [toyComment "t1_b" "t1_c" [] none, toyComment "t1_b" "t1_c" [] none] none]
               none,
             toyComment "t1_d" "t3_x" [] none] } ∧
    (toyTree.addCommentToTree (toyComment "t1_b" "t1_c" [] none)).addCommentToTree
        (toyComment "t1_b" "t1_c" [] none)
      ≠ toyTree.addCommentToTree (toyComment "t1_b" "t1_c" [] none) := by
  refine ⟨by decide, rfl, ?_⟩
  intro h
  have := congrArg (fun pc => (allFullIDs pc.Comments).length) h
  revert this
  decide

/-- Claim C18, amended.  Inserting the same comment a second time with
`addCommentToTree` attaches a second copy after the first at the same parent:
at the top level when the parent-fullname names the root post, and, in a
composite with pairwise distinct fullnames, as a further last child of the
comment `A` it names.  The tree after the second insertion equals the tree after
the first exactly when the parent-fullname names neither the root nor any
comment of the tree, the comment being dropped both times. -/
theorem addCommentToTree_twice (pc : PostAndComments E) (x : Comment E) :
    (pc.Post.FullID = x.ParentID →
      (pc.addCommentToTree x).addCommentToTree x
        = { pc with Comments := pc.Comments ++ [x, x] }) ∧
    ((pc.Post.FullID :: allFullIDs pc.Comments).Nodup →
      ∀ p A, nodeAt pc.Comments p = some A → A.FullID = x.ParentID →
        (pc.addCommentToTree x).addCommentToTree x
          = { pc with
              Comments :=
                modifyAt (fun c => (c.appendReply x).appendReply x) pc.Comments p }) ∧
    ((pc.addCommentToTree x).addCommentToTree x = pc.addCommentToTree x ↔
      x.ParentID ∉ pc.Post.FullID :: allFullIDs pc.Comments) := by
  have hroot_case : pc.Post.FullID = x.ParentID →
      (pc.addCommentToTree x).addCommentToTree x
        = { pc with Comments := pc.Comments ++ [x, x] } := by
    intro hroot
    unfold PostAndComments.addCommentToTree
    rw [if_pos hroot]
    simp only [if_pos hroot, List.append_assoc, List.singleton_append]
  have hcomment_case : ¬ pc.Post.FullID = x.ParentID →
      (pc.addCommentToTree x).addCommentToTree x
        = { pc with
            Comments :=
              visitEach x.ParentID (fun c => (c.appendReply x).appendReply x) pc.Comments } ∧
      pc.addCommentToTree x
        = { pc with
            Comments := visitEach x.ParentID (fun c => c.appendReply x) pc.Comments } := by
    intro hroot
    have h1 : pc.addCommentToTree x
        = { pc with
            Comments := visitEach x.ParentID (fun c => c.appendReply x) pc.Comments } := by
      unfold PostAndComments.addCommentToTree
      rw [if_neg hroot, addCommentToEachReply_eq_visitEach]
    refine ⟨?_, h1⟩
    rw [h1]
    unfold PostAndComments.addCommentToTree
    rw [if_neg hroot, addCommentToEachReply_eq_visitEach,
      visitEach_visitEach _ _ (Comment.appendReply_fields x)]
  refine ⟨hroot_case, ?_, ?_⟩
  · intro hn p A hA ht
    have hmem := forest_nodeAt_mem_allFullIDs pc.Comments p A hA
    have hroot : ¬ pc.Post.FullID = x.ParentID := by
      intro e
      rw [← ht] at e
      exact (List.nodup_cons.1 hn).1 (e ▸ hmem)
    have hall : ∀ q X, nodeAt pc.Comments q = some X → X.FullID = x.ParentID → p <+: q := by
      intro q X hX hXt
      rw [forest_nodeAt_unique pc.Comments p q A X (List.nodup_cons.1 hn).2 hA hX
        (hXt.trans ht.symm)]
    rw [(hcomment_case hroot).1, visitEach_eq_modifyAt _ _ pc.Comments p A hA ht hall]
  · constructor
    · intro heq hmem
      by_cases hroot : pc.Post.FullID = x.ParentID
      · have h1 := hroot_case hroot
        rw [heq] at h1
        have h2 : pc.addCommentToTree x = { pc with Comments := pc.Comments ++ [x] } := by
          unfold PostAndComments.addCommentToTree
          rw [if_pos hroot]
        rw [h2] at h1
        have := congrArg (fun pc => pc.Comments.length) h1
        simp at this
      · have hin : x.ParentID ∈ allFullIDs pc.Comments := by
          simp only [List.mem_cons] at hmem
          rcases hmem with hmem | hmem
          · exact absurd hmem.symm hroot
          · exact hmem
        have h1 := (hcomment_case hroot).1
        have h2 := (hcomment_case hroot).2
        rw [heq, h2, ← visitEach_visitEach _ _ (Comment.appendReply_fields x)] at h1
        have hin' := mem_allFullIDs_visitEach x.ParentID (fun c => c.appendReply x)
          (Comment.appendReply_fields x) (Comment.appendReply_extends x) pc.Comments _ hin
        have hlt := length_allFullIDs_visitEach_lt x.ParentID (fun c => c.appendReply x)
          (fun c => by
            rw [Comment.allFullIDs_appendReply, List.length_append]
            exact Nat.lt_add_of_pos_right x.length_allFullIDs_pos) _ hin'
        have := congrArg (fun pc => (allFullIDs pc.Comments).length) h1
        simp only at this
        omega
    · intro hmem
      simp only [List.mem_cons, not_or] at hmem
      have hroot : ¬ pc.Post.FullID = x.ParentID := fun e => hmem.1 e.symm
      have h2 := (hcomment_case hroot).2
      rw [visitEach_of_not_mem _ _ _ hmem.2] at h2
      rw [h2]
      exact h2

/-- Witness of C18 amended, on `toyTree`: a second reply to `t1_c` is appended
after the first one. -/
theorem addCommentToTree_twice_witness :
    (toyTree.Post.FullID :: allFullIDs toyTree.Comments).Nodup ∧
    nodeAt toyTree.Comments [0, 0] = some (toyComment "t1_c" "t1_a" [] none) ∧
    (toyComment "t1_c" "t1_a" [] none).FullID = (toyComment "t1_b" "t1_c" [] none).ParentID ∧
    (toyTree.addCommentToTree (toyComment "t1_b" "t1_c" [] none)).addCommentToTree
        (toyComment "t1_b" "t1_c" [] none)
      = { toyTree with
          Comments :=
            modifyAt
              (fun c => (c.appendReply (toyComment "t1_b" "t1_c" [] none)).appendReply
                (toyComment "t1_b" "t1_c" [] none))
              toyTree.Comments [0, 0] } :=
  ⟨by decide, rfl, rfl,
    (addCommentToTree_twice toyTree (toyComment "t1_b" "t1_c" [] none)).2.1 (by decide)
      [0, 0] _ rfl rfl⟩

/-! ## Lemmas on the topmost matches -/

theorem Comment.isTopmost_nil (t : String) (c : Comment E) :
    c.isTopmost t [] ↔ c.FullID = t := by
  unfold Comment.isTopmost
  constructor
  · rintro ⟨⟨A, hA, ht⟩, _⟩
    simp only [Comment.nodeAt, Option.some.injEq] at hA
    rw [hA]
    exact ht
  · intro h
    refine ⟨⟨c, rfl, h⟩, ?_⟩
    intro q B hq hne
    exact absurd (List.prefix_nil.1 hq) hne

theorem Comment.isTopmost_cons (t : String) (f : CommentFields E) (cs : List (Comment E))
    (m : Option More) (i : Nat) (q : List Nat) (d : Comment E) (hd : cs[i]? = some d) :
    (Comment.mk f cs m).isTopmost t (i :: q) ↔ f.FullID ≠ t ∧ d.isTopmost t q := by
  unfold Comment.isTopmost
  constructor
  · rintro ⟨⟨A, hA, ht⟩, hanc⟩
    rw [Comment.nodeAt_cons, hd] at hA
    refine ⟨?_, ⟨A, hA, ht⟩, ?_⟩
    · exact hanc [] (.mk f cs m) List.nil_prefix (by simp) rfl
    · intro q' B hq' hne hB
      apply hanc (i :: q') B (List.cons_prefix_cons.2 ⟨rfl, hq'⟩) (fun e => hne (by
        simpa using e))
      rw [Comment.nodeAt_cons, hd]
      exact hB
  · rintro ⟨hf, ⟨A, hA, ht⟩, hanc⟩
    refine ⟨⟨A, by rw [Comment.nodeAt_cons, hd]; exact hA, ht⟩, ?_⟩
    intro q' B hq' hne hB
    cases q' with
    | nil =>
      simp only [Comment.nodeAt, Option.some.injEq] at hB
      rw [← hB]
      exact hf
    | cons j q'' =>
      obtain ⟨hj, hq''⟩ := List.cons_prefix_cons.1 hq'
      subst hj
      rw [Comment.nodeAt_cons, hd] at hB
      exact hanc q'' B hq'' (fun e => hne (by rw [e])) hB

/-- Along the walk with `g`, the node at a topmost match becomes its image under
`g`; every other node keeps its fields, marker and number of children. -/
theorem Comment.nodeAt_visit_topmost (t : String) (g : Comment E → Comment E)
    (hgk : ∀ (c : Comment E) (i : Nat) (d : Comment E),
      c.Replies.Comments[i]? = some d → (g c).Replies.Comments[i]? = some d) :
    ∀ (q : List Nat) (c X : Comment E), c.nodeAt q = some X →
      ∃ Y, (c.visit t g).nodeAt q = some Y ∧ (c.isTopmost t q → Y = g X) ∧
        (¬ c.isTopmost t q → Y.sameNode X)
  | [], .mk f cs m, X, hX => by
    simp only [Comment.nodeAt, Option.some.injEq] at hX
    subst hX
    refine ⟨_, rfl, ?_, ?_⟩
    · intro h
      exact Comment.visit_of_FullID_eq t g _ ((Comment.isTopmost_nil t _).1 h)
    · intro h
      have hf : ¬ f.FullID = t := fun e => h ((Comment.isTopmost_nil t _).2 e)
      rw [Comment.visit_cons, if_neg hf]
      exact ⟨rfl, rfl, by simp [Comment.Replies]⟩
  | i :: q, .mk f cs m, X, hX => by
    rw [Comment.nodeAt_cons] at hX
    cases hd : cs[i]? with
    | none => simp [hd] at hX
    | some d =>
      simp only [hd] at hX
      rw [Comment.visit_cons]
      by_cases h : f.FullID = t
      · rw [if_pos h]
        have hchild := hgk (.mk f cs m) i d hd
        refine ⟨X, ?_, ?_, fun _ => ⟨rfl, rfl, rfl⟩⟩
        · simp only [Comment.nodeAt, hchild]
          exact hX
        · intro htop
          exact absurd h ((Comment.isTopmost_cons t f cs m i q d hd).1 htop).1
      · rw [if_neg h, Comment.nodeAt_cons, List.getElem?_map, hd]
        obtain ⟨Y, hY, h1, h2⟩ := Comment.nodeAt_visit_topmost t g hgk q d X hX
        refine ⟨Y, hY, ?_, ?_⟩
        · intro htop
          exact h1 ((Comment.isTopmost_cons t f cs m i q d hd).1 htop).2
        · intro htop
          exact h2 (fun hdtop => htop ((Comment.isTopmost_cons t f cs m i q d hd).2 ⟨h, hdtop⟩))

mutual
theorem Comment.length_allFullIDs_visit_eq (t : String) (g : Comment E → Comment E) (n : Nat)
    (hg : ∀ c : Comment E, (g c).allFullIDs.length = c.allFullIDs.length + n) :
    ∀ c : Comment E,
      (c.visit t g).allFullIDs.length = c.allFullIDs.length + (c.topmostPaths t).length * n
  | .mk f cs m => by
    unfold Comment.visit Comment.topmostPaths
    by_cases h : f.FullID = t
    · rw [if_pos h, if_pos h, hg]
      simp
    · rw [if_neg h, if_neg h]
      simp only [Comment.allFullIDs, List.length_cons]
      rw [length_allFullIDs_visitEach_eq t g n hg 0 cs]
      omega
theorem length_allFullIDs_visitEach_eq (t : String) (g : Comment E → Comment E) (n : Nat)
    (hg : ∀ c : Comment E, (g c).allFullIDs.length = c.allFullIDs.length + n) :
    ∀ (k : Nat) (cs : List (Comment E)),
      (allFullIDs (visitEach t g cs)).length
        = (allFullIDs cs).length + (topmostPathsFrom t k cs).length * n
  | _, [] => by simp [visitEach, allFullIDs, topmostPathsFrom]
  | k, c :: cs => by
    simp only [visitEach, allFullIDs, topmostPathsFrom, List.length_append, List.length_map]
    rw [Comment.length_allFullIDs_visit_eq t g n hg c,
      length_allFullIDs_visitEach_eq t g n hg (k + 1) cs, Nat.add_mul]
    omega
end

mutual
theorem Comment.mem_topmostPaths (t : String) :
    ∀ (c : Comment E) (p : List Nat), p ∈ c.topmostPaths t ↔ c.isTopmost t p
  | .mk f cs m, p => by
    unfold Comment.topmostPaths
    by_cases h : f.FullID = t
    · rw [if_pos h]
      constructor
      · intro hp
        rw [List.mem_singleton.1 hp]
        exact (Comment.isTopmost_nil t _).2 h
      · intro hp
        cases p with
        | nil => simp
        | cons i q =>
          exfalso
          exact hp.2 [] (.mk f cs m) List.nil_prefix (by simp) rfl h
    · rw [if_neg h, mem_topmostPathsFrom t cs 0 p]
      constructor
      · rintro ⟨i, d, q, hp, hd, htop⟩
        rw [hp, Nat.zero_add]
        exact (Comment.isTopmost_cons t f cs m i q d hd).2 ⟨h, htop⟩
      · intro hp
        cases p with
        | nil => exact absurd ((Comment.isTopmost_nil t _).1 hp) h
        | cons i q =>
          obtain ⟨⟨A, hA, _⟩, _⟩ := id hp
          rw [Comment.nodeAt_cons] at hA
          cases hd : cs[i]? with
          | none => simp [hd] at hA
          | some d =>
            exact ⟨i, d, q, by rw [Nat.zero_add], hd,
              ((Comment.isTopmost_cons t f cs m i q d hd).1 hp).2⟩
theorem mem_topmostPathsFrom (t : String) :
    ∀ (cs : List (Comment E)) (k : Nat) (p : List Nat),
      p ∈ topmostPathsFrom t k cs ↔
        ∃ (i : Nat) (d : Comment E) (q : List Nat),
          p = (k + i) :: q ∧ cs[i]? = some d ∧ d.isTopmost t q
  | [], k, p => by simp [topmostPathsFrom]
  | c :: cs, k, p => by
    simp only [topmostPathsFrom, List.mem_append, List.mem_map]
    constructor
    · rintro (⟨q, hq, rfl⟩ | hp)
      · exact ⟨0, c, q, rfl, List.getElem?_cons_zero, (Comment.mem_topmostPaths t c q).1 hq⟩
      · obtain ⟨i, d, q, hp, hd, htop⟩ := (mem_topmostPathsFrom t cs (k + 1) p).1 hp
        refine ⟨i + 1, d, q, ?_, by rw [List.getElem?_cons_succ]; exact hd, htop⟩
        rw [hp]
        congr 1
        omega
    · rintro ⟨i, d, q, hp, hd, htop⟩
      cases i with
      | zero =>
        simp only [List.getElem?_cons_zero, Option.some.injEq] at hd
        subst hd
        exact Or.inl ⟨q, (Comment.mem_topmostPaths t c q).2 htop, hp.symm⟩
      | succ i =>
        rw [List.getElem?_cons_succ] at hd
        refine Or.inr ((mem_topmostPathsFrom t cs (k + 1) p).2 ⟨i, d, q, ?_, hd, htop⟩)
        rw [hp]
        congr 1
        omega
end

mutual
theorem Comment.nodup_topmostPaths (t : String) :
    ∀ c : Comment E, (c.topmostPaths t).Nodup
  | .mk f cs m => by
    unfold Comment.topmostPaths
    by_cases h : f.FullID = t
    · rw [if_pos h]
      exact List.nodup_singleton _
    · rw [if_neg h]
      exact nodup_topmostPathsFrom t 0 cs
theorem nodup_topmostPathsFrom (t : String) :
    ∀ (k : Nat) (cs : List (Comment E)), (topmostPathsFrom t k cs).Nodup
  | _, [] => by simp [topmostPathsFrom]
  | k, c :: cs => by
    simp only [topmostPathsFrom]
    rw [List.nodup_append]
    refine ⟨?_, nodup_topmostPathsFrom t (k + 1) cs, ?_⟩
    · exact (Comment.nodup_topmostPaths t c).map (fun a b e => List.tail_eq_of_cons_eq e)
    · intro p hp1 hp2
      obtain ⟨q, _, rfl⟩ := List.mem_map.1 hp1
      obtain ⟨i, d, q', hp, _, _⟩ := (mem_topmostPathsFrom t cs (k + 1) _).1 hp2
      have := List.head_eq_of_cons_eq hp
      omega
end

mutual
theorem Comment.topmostPaths_ne_nil (t : String) :
    ∀ c : Comment E, t ∈ c.allFullIDs → c.topmostPaths t ≠ []
  | .mk f cs m => by
    intro hmem
    unfold Comment.topmostPaths
    by_cases h : f.FullID = t
    · rw [if_pos h]
      simp
    · rw [if_neg h]
      simp only [Comment.allFullIDs, List.mem_cons] at hmem
      rcases hmem with hmem | hmem
      · exact absurd hmem.symm h
      · exact topmostPathsFrom_ne_nil t 0 cs hmem
theorem topmostPathsFrom_ne_nil (t : String) :
    ∀ (k : Nat) (cs : List (Comment E)), t ∈ allFullIDs cs → topmostPathsFrom t k cs ≠ []
  | _, [], h => by simp [allFullIDs] at h
  | k, c :: cs, h => by
    simp only [allFullIDs, List.mem_append] at h
    simp only [topmostPathsFrom, ne_eq, List.append_eq_nil, List.map_eq_nil_iff, not_and]
    rcases h with h | h
    · intro e
      exact absurd e (Comment.topmostPaths_ne_nil t c h)
    · intro _
      exact topmostPathsFrom_ne_nil t (k + 1) cs h
end

theorem two_le_length_of_mem_of_ne {α : Type} (l : List α) (a b : α) (ha : a ∈ l)
    (hb : b ∈ l) (hab : a ≠ b) : 2 ≤ l.length := by
  match l, ha, hb with
  | [], ha, _ => simp at ha
  | [z], ha, hb =>
    exfalso
    rw [List.mem_singleton] at ha hb
    exact hab (ha.trans hb.symm)
  | _ :: _ :: _, _, _ => simp

/-! ## Claims on the partiality of the assembler and on encoding -/

/-- Claim C21.  When the input decodes as the two listings `l0` and `l1`, the
index `Posts[0]` of `PostAndComments.UnmarshalJSON` is in bounds exactly when the
post bucket of `l0` is non-empty, and the method returns exactly then.  With an
empty post bucket it panics with an out-of-range access, returning neither a
composite nor an error; this is the case whenever the buckets of `l0` were
decoded from children none of which is a well-formed post (no children, only
other kinds, or only posts whose payload fails to decode). -/
theorem PostAndComments_UnmarshalJSON_not_total (L : JSONListing E) (pc : PostAndComments E)
    (data : Bytes) (l0 l1 : rootListing E)
    (h : L.unmarshalRootListings data = .ok (l0, l1)) :
    ((∃ post, l0.getPosts.Posts[0]? = some post) ↔ l0.Data.Things.Posts ≠ []) ∧
    ((∃ res, PostAndComments.UnmarshalJSON L pc data = .returned res) ↔
      l0.Data.Things.Posts ≠ []) ∧
    (l0.Data.Things.Posts = [] →
      PostAndComments.UnmarshalJSON L pc data
        = .panicked "index out of range [0] with length 0") ∧
    (∀ (J : JSON E) (t : things E) (b : Bytes) (xs : List thing),
      J.unmarshalThings b = .ok xs → l0.Data.Things = (things.UnmarshalJSON J t b).1 →
      (∀ th ∈ xs, th.Kind ≠ kindPost ∨ (J.unmarshalPost th.Data).toOption = none) →
      PostAndComments.UnmarshalJSON L pc data
        = .panicked "index out of range [0] with length 0") := by
  have hpanic : l0.Data.Things.Posts = [] →
      PostAndComments.UnmarshalJSON L pc data
        = .panicked "index out of range [0] with length 0" := by
    intro he
    unfold PostAndComments.UnmarshalJSON
    simp [h, rootListing.getPosts, he]
  refine ⟨?_, ?_, hpanic, ?_⟩
  · unfold rootListing.getPosts
    cases l0.Data.Things.Posts with
    | nil => simp
    | cons p ps => simp
  · constructor
    · rintro ⟨res, hres⟩ he
      rw [hpanic he] at hres
      cases hres
    · intro hne
      cases hp : l0.Data.Things.Posts with
      | nil => exact absurd hp hne
      | cons p ps =>
        unfold PostAndComments.UnmarshalJSON
        simp [h, rootListing.getPosts, hp]
  · intro J t b xs hb ht hall
    apply hpanic
    rw [ht, UnmarshalJSON_of_ok J t b xs hb, foldl_appendThing_Posts]
    show [] ++ xs.filterMap J.postOf = []
    rw [List.nil_append, List.filterMap_eq_nil_iff]
    intro th hth
    unfold JSON.postOf
    rcases hall th hth with hk | hk
    · rw [if_neg hk]
    · rw [hk]
      split <;> rfl

/-- Witness of C21: the toy two-listing input `[91, 93]` decodes, its first
listing holds no post, and the assembler panics. -/
theorem PostAndComments_UnmarshalJSON_not_total_witness :
    toyJSONListing.unmarshalRootListings [91, 93] = .ok (toyListing toyThings, toyMoreListing) ∧
    (toyListing toyThings).Data.Things.Posts = [] ∧
    PostAndComments.UnmarshalJSON toyJSONListing toyTree [91, 93]
      = .panicked "index out of range [0] with length 0" :=
  ⟨rfl, rfl,
    (PostAndComments_UnmarshalJSON_not_total toyJSONListing toyTree [91, 93]
      (toyListing toyThings) toyMoreListing rfl).2.2.1 rfl⟩

/-- Claim C22.  For every reply container, whatever comments and marker it
holds, `Replies.UnmarshalJSON` applied to the two bytes `""` returns the nil
error and leaves the container, comments and marker, exactly as it was. -/
theorem Replies_UnmarshalJSON_sentinel_keeps (L : JSONListing E) (r : Replies E) :
    Replies.UnmarshalJSON L r emptyStringLiteral = (r, none) ∧
    (Replies.UnmarshalJSON L r emptyStringLiteral).1.Comments = r.Comments ∧
    (Replies.UnmarshalJSON L r emptyStringLiteral).1.More = r.More ∧
    (Replies.UnmarshalJSON L r emptyStringLiteral).2 = none := by
  unfold Replies.UnmarshalJSON
  rw [if_pos rfl]
  exact ⟨rfl, rfl, rfl, rfl⟩

/-- Claim C23.  Two reply containers with the same comment sequence are encoded
by `Replies.MarshalJSON` to the same bytes and error, whatever their markers. -/
theorem Replies_MarshalJSON_ignores_marker (L : JSONListing E) (r s : Replies E)
    (h : r.Comments = s.Comments) :
    Replies.MarshalJSON L (some r) = Replies.MarshalJSON L (some s) ∧
    Replies.MarshalJSON L (some r)
      = Replies.MarshalJSON L (some { Comments := r.Comments, More := none }) := by
  constructor
  · show (if r.Comments.length = 0 then (nullLiteral, none) else L.marshalComments r.Comments)
      = (if s.Comments.length = 0 then (nullLiteral, none) else L.marshalComments s.Comments)
    rw [h]
  · rfl

/-- Witness of C23: the same comment with two different markers and without one. -/
theorem Replies_MarshalJSON_ignores_marker_witness :
    ({ Comments := [toyComment "t1_a" "t3_x" [] none],
       More := some (toyMore "more_1" "t3_x" ["t1_y"]) } : Replies toyExternal).Comments
      = ({ Comments := [toyComment "t1_a" "t3_x" [] none],
           More := some (toyMore "more_2" "t3_x" ["t1_z"]) } : Replies toyExternal).Comments ∧
    Replies.MarshalJSON toyJSONListing
        (some { Comments := [toyComment "t1_a" "t3_x" [] none],
                More := some (toyMore "more_1" "t3_x" ["t1_y"]) })
      = Replies.MarshalJSON toyJSONListing
        (some { Comments := [toyComment "t1_a" "t3_x" [] none],
                More := some (toyMore "more_2" "t3_x" ["t1_z"]) }) :=
  ⟨rfl, (Replies_MarshalJSON_ignores_marker toyJSONListing
    { Comments := [toyComment "t1_a" "t3_x" [] none],
      More := some (toyMore "more_1" "t3_x" ["t1_y"]) }
    { Comments := [toyComment "t1_a" "t3_x" [] none],
      More := some (toyMore "more_2" "t3_x" ["t1_z"]) } rfl).1⟩

/-- Claim C24.  Let `r` be a reply container with at least one comment, for which
`json.Marshal` of the comment slice succeeds with a JSON array (its first byte
is `[`, the byte 91), and let `json.Unmarshal` reject, as `encoding/json` does,
a JSON array offered for the struct `rootListing`.  Then `Replies.MarshalJSON`
returns exactly the encoding of the comment slice, with no listing envelope
around it, and `Replies.UnmarshalJSON` applied to these bytes returns an error
and leaves its receiver untouched; a newly created container is therefore not
turned into `r`. -/
theorem Replies_encode_decode_not_inverse (L : JSONListing E) (r : Replies E) (bs : Bytes)
    (hne : r.Comments ≠ [])
    (hm : L.marshalComments r.Comments = (91 :: bs, none))
    (hreject : ∀ b, ∃ err, L.unmarshalRootListing (91 :: b) = .error err) :
    Replies.MarshalJSON L (some r) = L.marshalComments r.Comments ∧
    Replies.MarshalJSON L (some r) = (91 :: bs, none) ∧
    (∀ s : Replies E, ∃ err, Replies.UnmarshalJSON L s (91 :: bs) = (s, some err)) ∧
    (Replies.UnmarshalJSON L { Comments := [], More := none } (91 :: bs)).1 ≠ r := by
  have hlen : ¬ r.Comments.length = 0 := fun e => hne (List.length_eq_zero.1 e)
  have hmar : Replies.MarshalJSON L (some r) = L.marshalComments r.Comments := by
    show (if r.Comments.length = 0 then (nullLiteral, none) else L.marshalComments r.Comments)
      = L.marshalComments r.Comments
    rw [if_neg hlen]
  have hsent : ¬ (91 :: bs : Bytes) = emptyStringLiteral := by
    intro e
    have := List.head_eq_of_cons_eq e
    revert this
    decide
  have hun : ∀ s : Replies E, ∃ err, Replies.UnmarshalJSON L s (91 :: bs) = (s, some err) := by
    intro s
    obtain ⟨err, herr⟩ := hreject bs
    refine ⟨err, ?_⟩
    unfold Replies.UnmarshalJSON
    rw [if_neg hsent, herr]
  refine ⟨hmar, hmar.trans hm, hun, ?_⟩
  obtain ⟨err, herr⟩ := hun { Comments := [], More := none }
  rw [herr]
  intro e
  exact hne (congrArg Replies.Comments e).symm

/-- Witness of C24, with the toy library: a container with one comment and a
marker is encoded to the bytes `[91, 123, 93]`, which do not decode. -/
theorem Replies_encode_decode_not_inverse_witness :
    toyReplies.Comments ≠ [] ∧
    toyJSONListing.marshalComments toyReplies.Comments = (91 :: [123, 93], none) ∧
    (∀ b, ∃ err, toyJSONListing.unmarshalRootListing (91 :: b) = .error err) ∧
    Replies.MarshalJSON toyJSONListing (some toyReplies) = (91 :: [123, 93], none) ∧
    ∃ err, Replies.UnmarshalJSON toyJSONListing { Comments := [], More := none }
        (91 :: [123, 93]) = ({ Comments := [], More := none }, some err) :=
  have hne : toyReplies.Comments ≠ [] := List.cons_ne_nil _ _
  have hreject : ∀ b, ∃ err, toyJSONListing.unmarshalRootListing (91 :: b) = .error err :=
    fun _ => ⟨_, rfl⟩
  ⟨hne, rfl, hreject,
    (Replies_encode_decode_not_inverse toyJSONListing toyReplies [123, 93] hne rfl hreject).2.1,
    (Replies_encode_decode_not_inverse toyJSONListing toyReplies [123, 93] hne rfl
      hreject).2.2.1 _⟩

/-! ## Lemmas on the topmost matches of a forest -/

theorem forestIsTopmost_cons (t : String) (cs : List (Comment E)) (i : Nat) (q : List Nat)
    (d : Comment E) (hd : cs[i]? = some d) :
    forestIsTopmost t cs (i :: q) ↔ d.isTopmost t q := by
  unfold forestIsTopmost Comment.isTopmost
  constructor
  · rintro ⟨⟨A, hA, ht⟩, hanc⟩
    simp only [nodeAt, hd] at hA
    refine ⟨⟨A, hA, ht⟩, ?_⟩
    intro q' B hq' hne hB
    apply hanc (i :: q') B (List.cons_prefix_cons.2 ⟨rfl, hq'⟩) (fun e => hne (by
      simpa using e))
    simp only [nodeAt, hd]
    exact hB
  · rintro ⟨⟨A, hA, ht⟩, hanc⟩
    refine ⟨⟨A, by simp only [nodeAt, hd]; exact hA, ht⟩, ?_⟩
    intro q' B hq' hne hB
    cases q' with
    | nil => simp [nodeAt] at hB
    | cons j q'' =>
      obtain ⟨hj, hq''⟩ := List.cons_prefix_cons.1 hq'
      subst hj
      simp only [nodeAt, hd] at hB
      exact hanc q'' B hq'' (fun e => hne (by rw [e])) hB

/-- Forest version of `Comment.nodeAt_visit_topmost`. -/
theorem forest_nodeAt_visit_topmost (t : String) (g : Comment E → Comment E)
    (hgk : ∀ (c : Comment E) (i : Nat) (d : Comment E),
      c.Replies.Comments[i]? = some d → (g c).Replies.Comments[i]? = some d)
    (cs : List (Comment E)) (q : List Nat) (X : Comment E) (hX : nodeAt cs q = some X) :
    ∃ Y, nodeAt (visitEach t g cs) q = some Y ∧ (forestIsTopmost t cs q → Y = g X) ∧
      (¬ forestIsTopmost t cs q → Y.sameNode X) := by
  cases q with
  | nil => simp [nodeAt] at hX
  | cons i q =>
    simp only [nodeAt] at hX
    cases hd : cs[i]? with
    | none => simp [hd] at hX
    | some d =>
      simp only [hd] at hX
      obtain ⟨Y, hY, h1, h2⟩ := Comment.nodeAt_visit_topmost t g hgk q d X hX
      refine ⟨Y, ?_, ?_, ?_⟩
      · rw [visitEach_eq_map]
        simp only [nodeAt, List.getElem?_map, hd, Option.map_some']
        exact hY
      · intro htop
        exact h1 ((forestIsTopmost_cons t cs i q d hd).1 htop)
      · intro htop
        exact h2 (fun hdtop => htop ((forestIsTopmost_cons t cs i q d hd).2 hdtop))

mutual
theorem Comment.firstMatch_isTopmost (t : String) :
    ∀ (c : Comment E) (p : List Nat), c.firstMatch t = some p → c.isTopmost t p
  | .mk f cs m, p, h => by
    unfold Comment.firstMatch at h
    by_cases hf : f.FullID = t
    · rw [if_pos hf] at h
      simp only [Option.some.injEq] at h
      subst h
      exact (Comment.isTopmost_nil t _).2 hf
    · rw [if_neg hf] at h
      obtain ⟨i, q, d, hp, hd, htop⟩ := forest_firstMatch_isTopmost t cs 0 p h
      subst hp
      rw [Nat.zero_add]
      exact (Comment.isTopmost_cons t f cs m i q d hd).2 ⟨hf, htop⟩
theorem forest_firstMatch_isTopmost (t : String) :
    ∀ (cs : List (Comment E)) (k : Nat) (p : List Nat), firstMatch t k cs = some p →
      ∃ (i : Nat) (q : List Nat) (d : Comment E),
        p = (k + i) :: q ∧ cs[i]? = some d ∧ d.isTopmost t q
  | [], k, p, h => by simp [firstMatch] at h
  | c :: cs, k, p, h => by
    unfold firstMatch at h
    cases hc : c.firstMatch t with
    | some q =>
      simp only [hc, Option.some.injEq] at h
      exact ⟨0, q, c, h.symm, List.getElem?_cons_zero, Comment.firstMatch_isTopmost t c q hc⟩
    | none =>
      simp only [hc] at h
      obtain ⟨i, q, d, hp, hd, htop⟩ := forest_firstMatch_isTopmost t cs (k + 1) p h
      refine ⟨i + 1, q, d, ?_, by rw [List.getElem?_cons_succ]; exact hd, htop⟩
      rw [hp]
      congr 1
      omega
end

/-- A topmost match inside the node at `q` is a topmost match of the whole
subtree when no proper ancestor of that node is named `t`. -/
theorem Comment.isTopmost_append (t : String) :
    ∀ (q r : List Nat) (c P : Comment E), c.nodeAt q = some P →
      (∀ q' B, q' <+: q → q' ≠ q → c.nodeAt q' = some B → B.FullID ≠ t) →
      P.isTopmost t r → c.isTopmost t (q ++ r)
  | [], r, c, P, hP, _, htop => by
    simp only [Comment.nodeAt, Option.some.injEq] at hP
    subst hP
    exact htop
  | k :: q, r, .mk f cs m, P, hP, hanc, htop => by
    rw [Comment.nodeAt_cons] at hP
    cases hd : cs[k]? with
    | none => simp [hd] at hP
    | some d =>
      simp only [hd] at hP
      have hf : f.FullID ≠ t := hanc [] (.mk f cs m) List.nil_prefix (by simp) rfl
      have hrec : d.isTopmost t (q ++ r) := by
        apply Comment.isTopmost_append t q r d P hP _ htop
        intro q' B hq' hne hB
        apply hanc (k :: q') B (List.cons_prefix_cons.2 ⟨rfl, hq'⟩) (fun e => hne (by
          simpa using e))
        rw [Comment.nodeAt_cons, hd]
        exact hB
      exact (Comment.isTopmost_cons t f cs m k (q ++ r) d hd).2 ⟨hf, hrec⟩

theorem addMoreToTree_Comments (pc : PostAndComments E) (m : More) :
    (pc.addMoreToTree m).Comments = visitEach m.ParentID (Comment.setMore m) pc.Comments := by
  unfold PostAndComments.addMoreToTree
  rw [← addMoreToEachReply_eq_visitEach]
  by_cases hroot : pc.Post.FullID = m.ParentID
  · simp only [if_pos hroot]
  · simp only [if_neg hroot]

theorem addMoreToTree_More (pc : PostAndComments E) (m : More) :
    (pc.addMoreToTree m).More = if pc.Post.FullID = m.ParentID then some m else pc.More := by
  unfold PostAndComments.addMoreToTree
  by_cases hroot : pc.Post.FullID = m.ParentID
  · simp only [if_pos hroot]
  · simp only [if_neg hroot]

/-! ## Claims on the attachment points for duplicated fullnames -/

/-- Claim C5, amended.  For every composite (duplicate fullnames allowed) and
every new comment `x`, `addCommentToTree` attaches `x` at the first node in
pre-order (root post first) named by the parent-fullname of `x`: at the top
level, and nowhere else, when that node is the root post; otherwise as last
child of the first comment so named.  When the root is not so named the nodes
that receive `x` are exactly the comments so named that have no proper ancestor
so named, every other node keeping its fields, marker and number of children;
the first match is therefore the only attachment point whenever every node so
named lies at or below it, and when no node is so named the composite is
unchanged. -/
theorem addCommentToTree_first_match (pc : PostAndComments E) (x : Comment E) :
    (pc.Post.FullID = x.ParentID →
      pc.addCommentToTree x = { pc with Comments := pc.Comments ++ [x] }) ∧
    (pc.Post.FullID ≠ x.ParentID →
      (firstMatch x.ParentID 0 pc.Comments = none → pc.addCommentToTree x = pc) ∧
      (∀ p, firstMatch x.ParentID 0 pc.Comments = some p →
        ∃ A, nodeAt pc.Comments p = some A ∧ A.FullID = x.ParentID ∧
          nodeAt (pc.addCommentToTree x).Comments p = some (A.appendReply x)) ∧
      (∀ q X, nodeAt pc.Comments q = some X →
        ∃ Y, nodeAt (pc.addCommentToTree x).Comments q = some Y ∧
          (forestIsTopmost x.ParentID pc.Comments q → Y = X.appendReply x) ∧
          (¬ forestIsTopmost x.ParentID pc.Comments q → Y.sameNode X)) ∧
      (pc.addCommentToTree x).Comments.length = pc.Comments.length ∧
      (pc.addCommentToTree x).Post = pc.Post ∧ (pc.addCommentToTree x).More = pc.More) ∧
    ((pc.Post.FullID ≠ x.ParentID →
        ∀ p, firstMatch x.ParentID 0 pc.Comments = some p →
          ∀ q X, nodeAt pc.Comments q = some X → X.FullID = x.ParentID → p <+: q) →
      pc.addCommentToTree x = pc.attachAtFirstMatch x) := by
  refine ⟨?_, ?_, ?_⟩
  · intro hroot
    unfold PostAndComments.addCommentToTree
    rw [if_pos hroot]
  · intro hroot
    have heq : pc.addCommentToTree x
        = { pc with
            Comments := visitEach x.ParentID (fun c => c.appendReply x) pc.Comments } := by
      unfold PostAndComments.addCommentToTree
      rw [if_neg hroot, addCommentToEachReply_eq_visitEach]
    have hframe : ∀ q X, nodeAt pc.Comments q = some X →
        ∃ Y, nodeAt (pc.addCommentToTree x).Comments q = some Y ∧
          (forestIsTopmost x.ParentID pc.Comments q → Y = X.appendReply x) ∧
          (¬ forestIsTopmost x.ParentID pc.Comments q → Y.sameNode X) := by
      intro q X hX
      rw [heq]
      exact forest_nodeAt_visit_topmost _ _ (Comment.appendReply_keeps x) pc.Comments q X hX
    refine ⟨?_, ?_, hframe, ?_, ?_, ?_⟩
    · intro hnone
      rw [heq, visitEach_of_not_mem _ _ _ (forest_firstMatch_complete _ _ _ hnone)]
    · intro p hp
      obtain ⟨i, q, d, hpq, hd, htop⟩ := forest_firstMatch_isTopmost _ _ _ _ hp
      rw [Nat.zero_add] at hpq
      subst hpq
      have hftop := (forestIsTopmost_cons x.ParentID pc.Comments i q d hd).2 htop
      obtain ⟨⟨A, hA, hAt⟩, _⟩ := id hftop
      obtain ⟨Y, hY, h1, _⟩ := hframe (i :: q) A hA
      exact ⟨A, hA, hAt, by rw [hY, h1 hftop]⟩
    · rw [heq]
      show (visitEach x.ParentID (fun c => c.appendReply x) pc.Comments).length = _
      rw [visitEach_eq_map, List.length_map]
    · rw [heq]
    · rw [heq]
  · intro h
    unfold PostAndComments.addCommentToTree PostAndComments.attachAtFirstMatch
    by_cases hroot : pc.Post.FullID = x.ParentID
    · rw [if_pos hroot, if_pos hroot]
    · rw [if_neg hroot, if_neg hroot, addCommentToEachReply_eq_visitEach]
      cases hp : firstMatch x.ParentID 0 pc.Comments with
      | none =>
        simp only []
        rw [visitEach_of_not_mem _ _ _ (forest_firstMatch_complete _ _ _ hp)]
      | some p =>
        simp only []
        obtain ⟨i, q, d, A, hpq, hd, hA, ht⟩ := forest_firstMatch_sound _ _ _ _ hp
        have hnode : nodeAt pc.Comments p = some A := by
          rw [hpq, Nat.zero_add]
          simp only [nodeAt, hd]
          exact hA
        rw [visitEach_eq_modifyAt _ _ pc.Comments p A hnode ht (h hroot p hp)]

/-- Witness of C5 amended.  On `toySiblings`, where a second node named `t1_a`
lies outside the first, the first match `[0]` still receives the comment; on
`toyNested`, where the second node named `t1_a` is a child of the first, the
first match is the only attachment point. -/
theorem addCommentToTree_first_match_witness :
    (toySiblings.Post.FullID ≠ (toyComment "t1_b" "t1_a" [] none).ParentID ∧
      firstMatch (toyComment "t1_b" "t1_a" [] none).ParentID 0 toySiblings.Comments
        = some [0] ∧
      ∃ A, nodeAt toySiblings.Comments [0] = some A ∧
        A.FullID = (toyComment "t1_b" "t1_a" [] none).ParentID ∧
        nodeAt (toySiblings.addCommentToTree (toyComment "t1_b" "t1_a" [] none)).Comments [0]
          = some (A.appendReply (toyComment "t1_b" "t1_a" [] none))) ∧
    ((toyNested.Post.FullID ≠ (toyComment "t1_b" "t1_a" [] none).ParentID →
      ∀ p, firstMatch (toyComment "t1_b" "t1_a" [] none).ParentID 0 toyNested.Comments = some p →
        ∀ q X, nodeAt toyNested.Comments q = some X →
          X.FullID = (toyComment "t1_b" "t1_a" [] none).ParentID → p <+: q) ∧
      toyNested.addCommentToTree (toyComment "t1_b" "t1_a" [] none)
        = { toyNested with
            Comments :=
              [toyComment "t1_a" "t3_x"
                 [toyComment "t1_a" "t1_a" [] none, toyComment "t1_b" "t1_a" [] none]
                 none] }) :=
  have hroot : toySiblings.Post.FullID ≠ (toyComment "t1_b" "t1_a" [] none).ParentID := by
    decide
  have hyp : toyNested.Post.FullID ≠ (toyComment "t1_b" "t1_a" [] none).ParentID →
      ∀ p, firstMatch (toyComment "t1_b" "t1_a" [] none).ParentID 0 toyNested.Comments = some p →
        ∀ q X, nodeAt toyNested.Comments q = some X →
          X.FullID = (toyComment "t1_b" "t1_a" [] none).ParentID → p <+: q := by
    intro _ p hp q X hX _
    have hp' : p = [0] := (Option.some.inj hp).symm
    subst hp'
    match q, hX with
    | [], hX => exact absurd hX (by simp [nodeAt])
    | 0 :: q, _ => exact List.cons_prefix_cons.2 ⟨rfl, List.nil_prefix⟩
    | (n + 1) :: q, hX => exact absurd hX (by simp [nodeAt, toyNested])
  ⟨⟨hroot, rfl,
      ((addCommentToTree_first_match toySiblings (toyComment "t1_b" "t1_a" [] none)).2.1
        hroot).2.1 [0] rfl⟩,
    hyp, (addCommentToTree_first_match toyNested (toyComment "t1_b" "t1_a" [] none)).2.2 hyp⟩

/-- Claim C9.  For two markers `m1`, `m2` with the same parent-fullname and every
composite, inserting `m1` and then `m2` with `addMoreToTree` gives exactly the
composite obtained by inserting `m2` alone.  The attachment points are the root
post, when it carries that fullname, and the comments carrying it that have no
proper ancestor carrying it: each of them holds `m1` after the first insertion
and, after the second, is the original node with `m2` as its marker, nothing of
`m1` being left; the root marker and every other node keep the marker they had
before both insertions. -/
theorem addMoreToTree_overwrites (pc : PostAndComments E) (m1 m2 : More)
    (h : m1.ParentID = m2.ParentID) :
    (pc.addMoreToTree m1).addMoreToTree m2 = pc.addMoreToTree m2 ∧
    (pc.Post.FullID = m2.ParentID →
      (pc.addMoreToTree m1).More = some m1 ∧
      ((pc.addMoreToTree m1).addMoreToTree m2).More = some m2) ∧
    (pc.Post.FullID ≠ m2.ParentID →
      (pc.addMoreToTree m1).More = pc.More ∧
      ((pc.addMoreToTree m1).addMoreToTree m2).More = pc.More) ∧
    (∀ q X, nodeAt pc.Comments q = some X →
      ∃ Y1 Y2, nodeAt (pc.addMoreToTree m1).Comments q = some Y1 ∧
        nodeAt ((pc.addMoreToTree m1).addMoreToTree m2).Comments q = some Y2 ∧
        (forestIsTopmost m2.ParentID pc.Comments q →
          Y1 = X.setMore m1 ∧ Y2 = X.setMore m2 ∧ Y2.Replies.More = some m2) ∧
        (¬ forestIsTopmost m2.ParentID pc.Comments q →
          Y1.sameNode X ∧ Y2.sameNode X ∧ Y2.Replies.More = X.Replies.More)) ∧
    ((pc.addMoreToTree m1).addMoreToTree m2).Post = pc.Post ∧
    ((pc.addMoreToTree m1).addMoreToTree m2).Comments.length = pc.Comments.length := by
  have heq : (pc.addMoreToTree m1).addMoreToTree m2 = pc.addMoreToTree m2 := by
    unfold PostAndComments.addMoreToTree
    by_cases hroot : pc.Post.FullID = m1.ParentID
    · have hroot2 : pc.Post.FullID = m2.ParentID := hroot.trans h
      simp only [if_pos hroot, if_pos hroot2, addMoreToEachReply_twice m1 m2 h]
    · have hroot2 : ¬ pc.Post.FullID = m2.ParentID := fun e => hroot (e.trans h.symm)
      simp only [if_neg hroot, if_neg hroot2, addMoreToEachReply_twice m1 m2 h]
  rw [heq]
  refine ⟨rfl, ?_, ?_, ?_, ?_, ?_⟩
  · intro hroot
    rw [addMoreToTree_More, addMoreToTree_More, if_pos hroot, if_pos (hroot.trans h.symm)]
    exact ⟨rfl, rfl⟩
  · intro hroot
    rw [addMoreToTree_More, addMoreToTree_More, if_neg hroot,
      if_neg (fun e => hroot (e.trans h))]
    exact ⟨rfl, rfl⟩
  · intro q X hX
    rw [addMoreToTree_Comments, addMoreToTree_Comments, h]
    obtain ⟨Y1, hY1, a1, b1⟩ := forest_nodeAt_visit_topmost m2.ParentID (Comment.setMore m1)
      (Comment.setMore_keeps m1) pc.Comments q X hX
    obtain ⟨Y2, hY2, a2, b2⟩ := forest_nodeAt_visit_topmost m2.ParentID (Comment.setMore m2)
      (Comment.setMore_keeps m2) pc.Comments q X hX
    refine ⟨Y1, Y2, hY1, hY2, ?_, ?_⟩
    · intro htop
      refine ⟨a1 htop, a2 htop, ?_⟩
      rw [a2 htop]
      cases X
      rfl
    · intro htop
      exact ⟨b1 htop, b2 htop, (b2 htop).2.1⟩
  · unfold PostAndComments.addMoreToTree
    by_cases hroot : pc.Post.FullID = m2.ParentID
    · simp only [if_pos hroot]
    · simp only [if_neg hroot]
  · rw [addMoreToTree_Comments, visitEach_eq_map, List.length_map]

/-- Witness of C9, on the tree with two sibling comments named `t1_a`: after
both insertions each of them holds the second marker. -/
theorem addMoreToTree_overwrites_witness :
    (toyMore "more_1" "t1_a" ["t1_y"]).ParentID = (toyMore "more_2" "t1_a" ["t1_z"]).ParentID ∧
    (toySiblings.addMoreToTree (toyMore "more_1" "t1_a" ["t1_y"])).addMoreToTree
        (toyMore "more_2" "t1_a" ["t1_z"])
      = { toySiblings with
          Comments :=
            [toyComment "t1_a" "t3_x" [] (some (toyMore "more_2" "t1_a" ["t1_z"])),
             toyComment "t1_a" "t3_x" [] (some (toyMore "more_2" "t1_a" ["t1_z"]))] } ∧
    (toySiblings.addMoreToTree (toyMore "more_1" "t1_a" ["t1_y"])).Comments
      = [toyComment "t1_a" "t3_x" [] (some (toyMore "more_1" "t1_a" ["t1_y"])),
         toyComment "t1_a" "t3_x" [] (some (toyMore "more_1" "t1_a" ["t1_y"]))] :=
  ⟨rfl, (addMoreToTree_overwrites toySiblings (toyMore "more_1" "t1_a" ["t1_y"])
    (toyMore "more_2" "t1_a" ["t1_z"]) rfl).1, rfl⟩

/-- Counterexample to C20 as stated: the two replies of `toyDupRoot` are sibling
subtrees that both contain the fullname `t1_a`, yet a reply to `t1_a` is
attached once only, under the root, which carries that fullname itself. -/
theorem siblings_under_a_match_attach_once :
    toyDupRoot.Replies.Comments[0]? = some (toyComment "t1_a" "t1_a" [] none) ∧
    toyDupRoot.Replies.Comments[1]? = some (toyComment "t1_a" "t1_a" [] none) ∧
    (toyComment "t1_b" "t1_a" [] none).ParentID ∈ (toyComment "t1_a" "t1_a" [] none).allFullIDs ∧
    toyDupRoot.addCommentToReplies (toyComment "t1_b" "t1_a" [] none)
      = toyComment "t1_a" "t3_x"
          [toyComment "t1_a" "t1_a" [] none, toyComment "t1_a" "t1_a" [] none,
           toyComment "t1_b" "t1_a" [] none] none ∧
    (toyDupRoot.addCommentToReplies (toyComment "t1_b" "t1_a" [] none)).allFullIDs.length
      = toyDupRoot.allFullIDs.length + 1 * (toyComment "t1_b" "t1_a" [] none).allFullIDs.length ∧
    ¬ (toyDupRoot.allFullIDs.length + 2 * (toyComment "t1_b" "t1_a" [] none).allFullIDs.length
        ≤ (toyDupRoot.addCommentToReplies (toyComment "t1_b" "t1_a" [] none)).allFullIDs.length) :=
  ⟨rfl, rfl, by decide, rfl, by decide, by decide⟩

/-- Claim C20, amended.  For every comment `c` (the root of a subtree) and every
new comment `x`, `Comment.addCommentToReplies` appends `x` as last child at
every node of the subtree named by the parent-fullname of `x` that has no proper
ancestor in the subtree so named, and every other node keeps its fields, marker
and number of children.  These nodes are listed, once each, by `topmostPaths`,
and the subtree grows by as many copies of `x` as there are such nodes.  There
are at least two of them when two sibling subtrees each contain such a node,
which is the case when both contain that fullname and no node from the root of
the subtree down to their common parent carries it. -/
theorem addCommentToReplies_attachment_set (c x : Comment E) :
    (∀ q X, c.nodeAt q = some X →
      ∃ Y, (c.addCommentToReplies x).nodeAt q = some Y ∧
        (c.isTopmost x.ParentID q → Y = X.appendReply x) ∧
        (¬ c.isTopmost x.ParentID q → Y.sameNode X)) ∧
    (∀ p, p ∈ c.topmostPaths x.ParentID ↔ c.isTopmost x.ParentID p) ∧
    (c.topmostPaths x.ParentID).Nodup ∧
    (c.addCommentToReplies x).allFullIDs.length
      = c.allFullIDs.length + (c.topmostPaths x.ParentID).length * x.allFullIDs.length ∧
    (∀ (q r s : List Nat) (i j : Nat), i ≠ j →
      c.isTopmost x.ParentID (q ++ i :: r) → c.isTopmost x.ParentID (q ++ j :: s) →
      2 ≤ (c.topmostPaths x.ParentID).length) ∧
    (∀ (q : List Nat) (P : Comment E) (i j : Nat) (a b : Comment E),
      c.nodeAt q = some P →
      (∀ q' B, q' <+: q → c.nodeAt q' = some B → B.FullID ≠ x.ParentID) →
      i ≠ j → P.Replies.Comments[i]? = some a → P.Replies.Comments[j]? = some b →
      x.ParentID ∈ a.allFullIDs → x.ParentID ∈ b.allFullIDs →
      2 ≤ (c.topmostPaths x.ParentID).length) ∧
    (c.FullID = x.ParentID →
      c.topmostPaths x.ParentID = [[]] ∧ c.addCommentToReplies x = c.appendReply x) := by
  rw [Comment.addCommentToReplies_eq_visit]
  refine ⟨?_, Comment.mem_topmostPaths _ c, Comment.nodup_topmostPaths _ c, ?_, ?_, ?_, ?_⟩
  · intro q X hX
    exact Comment.nodeAt_visit_topmost _ _ (Comment.appendReply_keeps x) q c X hX
  · apply Comment.length_allFullIDs_visit_eq
    intro d
    rw [Comment.allFullIDs_appendReply, List.length_append]
  · intro q r s i j hij h1 h2
    refine two_le_length_of_mem_of_ne _ _ _ ((Comment.mem_topmostPaths _ c _).2 h1)
      ((Comment.mem_topmostPaths _ c _).2 h2) ?_
    intro e
    exact hij (List.head_eq_of_cons_eq (List.append_cancel_left e))
  · intro q P i j a b hP hanc hij ha hb hta htb
    have hPt : P.FullID ≠ x.ParentID := hanc q P (List.prefix_refl q) hP
    have hanc' : ∀ q' B, q' <+: q → q' ≠ q → c.nodeAt q' = some B → B.FullID ≠ x.ParentID :=
      fun q' B hq' _ hB => hanc q' B hq' hB
    obtain ⟨ra, hra⟩ := List.exists_mem_of_ne_nil _ (Comment.topmostPaths_ne_nil _ a hta)
    obtain ⟨rb, hrb⟩ := List.exists_mem_of_ne_nil _ (Comment.topmostPaths_ne_nil _ b htb)
    cases P with
    | mk f cs m =>
      have hf : f.FullID ≠ x.ParentID := hPt
      have h1 : c.isTopmost x.ParentID (q ++ i :: ra) :=
        Comment.isTopmost_append _ q (i :: ra) c _ hP hanc'
          ((Comment.isTopmost_cons _ f cs m i ra a ha).2
            ⟨hf, (Comment.mem_topmostPaths _ a ra).1 hra⟩)
      have h2 : c.isTopmost x.ParentID (q ++ j :: rb) :=
        Comment.isTopmost_append _ q (j :: rb) c _ hP hanc'
          ((Comment.isTopmost_cons _ f cs m j rb b hb).2
            ⟨hf, (Comment.mem_topmostPaths _ b rb).1 hrb⟩)
      refine two_le_length_of_mem_of_ne _ _ _ ((Comment.mem_topmostPaths _ c _).2 h1)
        ((Comment.mem_topmostPaths _ c _).2 h2) ?_
      intro e
      exact hij (List.head_eq_of_cons_eq (List.append_cancel_left e))
  · intro hc
    refine ⟨?_, Comment.visit_of_FullID_eq _ _ c hc⟩
    cases c with
    | mk f cs m =>
      have hf : f.FullID = x.ParentID := hc
      unfold Comment.topmostPaths
      rw [if_pos hf]

/-- Witness of C20 amended, on `toyFork`: the root carries another fullname, its
two replies both contain `t1_a`, the nested node named `t1_a` is not an
attachment point, and two copies are attached. -/
theorem addCommentToReplies_attachment_set_witness :
    toyFork.nodeAt [] = some toyFork ∧
    (∀ q' B, q' <+: [] → toyFork.nodeAt q' = some B →
      B.FullID ≠ (toyComment "t1_b" "t1_a" [] none).ParentID) ∧
    (0 : Nat) ≠ 1 ∧
    toyFork.Replies.Comments[0]?
      = some (toyComment "t1_a" "t1_r" [toyComment "t1_a" "t1_a" [] none] none) ∧
    toyFork.Replies.Comments[1]? = some (toyComment "t1_a" "t1_r" [] none) ∧
    (toyComment "t1_b" "t1_a" [] none).ParentID
      ∈ (toyComment "t1_a" "t1_r" [toyComment "t1_a" "t1_a" [] none] none).allFullIDs ∧
    (toyComment "t1_b" "t1_a" [] none).ParentID
      ∈ (toyComment "t1_a" "t1_r" [] none).allFullIDs ∧
    2 ≤ (toyFork.topmostPaths (toyComment "t1_b" "t1_a" [] none).ParentID).length ∧
    toyFork.topmostPaths (toyComment "t1_b" "t1_a" [] none).ParentID = [[0], [1]] ∧
    toyFork.addCommentToReplies (toyComment "t1_b" "t1_a" [] none)
      = toyComment "t1_r" "t3_x"
          [toyComment "t1_a" "t1_r"
             [toyComment "t1_a" "t1_a" [] none, toyComment "t1_b" "t1_a" [] none] none,
           toyComment "t1_a" "t1_r" [toyComment "t1_b" "t1_a" [] none] none] none :=
  have hanc : ∀ q' B, q' <+: [] → toyFork.nodeAt q' = some B →
      B.FullID ≠ (toyComment "t1_b" "t1_a" [] none).ParentID := by
    intro q' B hq' hB
    have hnil := List.prefix_nil.1 hq'
    subst hnil
    have hB' : toyFork = B := Option.some.inj hB
    subst hB'
    decide
  ⟨rfl, hanc, by decide, rfl, rfl, by decide, by decide,
    (addCommentToReplies_attachment_set toyFork
      (toyComment "t1_b" "t1_a" [] none)).2.2.2.2.2.1
      [] toyFork 0 1 _ _ rfl hanc (by decide) rfl rfl (by decide) (by decide),
    rfl, rfl⟩

end reddit
